import Mathlib

/-!
Verification development for the partner-charts upstream version resolution
and reconciliation engine (main.go of the repository).

The Go source is shallowly embedded: pure helpers become Lean functions, the
in-place mutation of chart wrappers becomes explicit value passing, and Go
panics (nil dereference, index out of range) become explicit error values of
an `Except`-style result.  Functions of the repository that live in packages
outside the provided source (pkg/conform, pkg/icons) are modelled from the
design document and are marked as such in their doc comments.
-/

/-! ## Semantic versions -/

/-- Model of a parsed semantic version (Masterminds semver.Version).
`pre` is the prerelease qualifier, the empty string meaning "no prerelease".
We do not model build metadata: the code never inspects it. -/
structure SemV where
  major : Nat
  minor : Nat
  patch : Nat
  pre : String
deriving DecidableEq, Repr

/-- Sort key realising semver precedence: major, then minor, then patch,
then "a release is newer than any prerelease of the same triple", then the
prerelease qualifiers themselves (ordered lexicographically; the fine
structure of prerelease comparison is irrelevant to every claim, which only
ever compares versions of which at most one carries a prerelease). -/
def SemV.key (v : SemV) : Lex (Nat × Lex (Nat × Lex (Nat × Lex (Bool × String)))) :=
  toLex (v.major, toLex (v.minor, toLex (v.patch, toLex (v.pre == "", v.pre))))

/-- Strict semver precedence, as a proposition. -/
def semvLT (a b : SemV) : Prop := a.key < b.key

instance (a b : SemV) : Decidable (semvLT a b) := by
  unfold semvLT; infer_instance

/-- Masterminds semver GreaterThan. -/
def semverGT (a b : SemV) : Bool := decide (semvLT b a)

theorem semvLT_trans {a b c : SemV} (h1 : semvLT a b) (h2 : semvLT b c) :
    semvLT a c := lt_trans h1 h2

theorem semvLT_of_le_of_lt {a b c : SemV} (h1 : ¬ semvLT b a) (h2 : semvLT b c) :
    semvLT a c := lt_of_le_of_lt (not_lt.mp h1) h2

theorem semvLT_irrefl (a : SemV) : ¬ semvLT a a := lt_irrefl _

/-! ## Version strings -/

/-- Model of a Go version string.  A string either fails to parse as a
semver (`malformed`, with a tag distinguishing different malformed strings)
or is the canonical rendering of a semver, possibly carrying a synthetic
package-revision suffix (the repository appends such a suffix to mark a
local re-release of the same upstream version). -/
inductive VStr where
  | malformed (tag : Nat)
  | canon (v : SemV) (rev : Option Nat)
deriving DecidableEq, Repr

/-- Modelled from the spec: `conform.StripPackageVersion` (pkg/conform is
not part of the provided source).  The spec: the revision suffix "is a
synthetic marker appended to a version string ... it must be stripped
before comparing against upstream version strings".  Stripping removes the
suffix and leaves everything else alone. -/
def stripPackageVersion : VStr → VStr
  | .malformed t => .malformed t
  | .canon v _ => .canon v none

/-- Masterminds `semver.NewVersion` on the modelled strings.  A canonical
rendering without a revision suffix parses to its semver; a malformed
string fails.  Whether a revision-suffixed string parses as some semver is
not determined by the spec (pkg/conform is missing); it is modelled as not
parsing, which no claim depends on. -/
def newVersion : VStr → Option SemV
  | .malformed _ => none
  | .canon v none => some v
  | .canon _ (some _) => none

/-- Model of repo.ChartVersion: the fields the engine reads. -/
structure CV where
  name : String
  version : VStr
deriving DecidableEq, Repr

/-- True when the version string of the entry parses as a semver. -/
def parseableCV (cv : CV) : Bool := (newVersion cv.version).isSome

/-! ## Fetch modes and Go-level outcomes -/

/-- The UpstreamYaml `Fetch` field.  The code compares it (lowercased for
the latest check, verbatim for the others) against "", "latest", "newer"
and "all"; `other` stands for any remaining string. -/
inductive Fetch where
  | empty
  | latest
  | newer
  | all
  | other
deriving DecidableEq, Repr

/-- The condition `strings.ToLower(fetch) == "" || strings.ToLower(fetch) == "latest"`. -/
def isLatestMode : Fetch → Bool
  | .empty => true
  | .latest => true
  | _ => false

/-- Outcomes by which the embedded code can abort: returned Go errors, and
Go panics (modelled explicitly so that theorems can distinguish an orderly
error from a crash). -/
inductive GoErr where
  | emptyUpstream
  | featuredConflict
  | panicIndexOutOfRange
  | panicNilDeref
  | generateVersionFailed
deriving DecidableEq, Repr

/-! ## Version filter (main.go) -/

/-- main.go `stripPreRelease`: keep exactly the versions that parse and
carry no prerelease qualifier; malformed entries are logged and skipped. -/
def stripPreRelease (versions : List CV) : List CV :=
  versions.filter fun cv =>
    match newVersion cv.version with
    | some s => s.pre == ""
    | none => false

/-- main.go `collectTrackedVersions`, for one tracked line `t`: scan the
list, keeping versions whose (major, minor) equals the tracked line's,
breaking out the first time a strictly older line is seen, and skipping
entries (or all entries, when the tracked line itself is malformed) that
fail to parse. -/
def collectTrackedBucket (t : VStr) : List CV → List CV
  | [] => []
  | v :: rest =>
    match newVersion v.version, newVersion t with
    | some sv, some st =>
      if sv.major = st.major ∧ sv.minor = st.minor then
        v :: collectTrackedBucket t rest
      else if sv.major < st.major ∨ (sv.major = st.major ∧ sv.minor < st.minor) then
        []
      else
        collectTrackedBucket t rest
    | _, _ => collectTrackedBucket t rest

/-- Loop of main.go `getLatestTracked`.  A malformed tracked line while the
accumulator is still nil assigns nil again (Go's short-circuit `||`); a
malformed line once the accumulator is set dereferences the nil `semVer`
in `GreaterThan` and panics. -/
def getLatestTrackedGo : List VStr → Option SemV → Except GoErr (Option SemV)
  | [], acc => .ok acc
  | t :: rest, acc =>
    match newVersion t with
    | none =>
      match acc with
      | none => getLatestTrackedGo rest none
      | some _ => .error .panicNilDeref
    | some sv =>
      match acc with
      | none => getLatestTrackedGo rest (some sv)
      | some lt0 =>
        if semverGT sv lt0 then getLatestTrackedGo rest (some sv)
        else getLatestTrackedGo rest acc

/-- main.go `getLatestTracked`. -/
def getLatestTracked (tracked : List VStr) : Except GoErr (Option SemV) :=
  getLatestTrackedGo tracked none

/-- Loop of main.go `checkNewerUntracked` over the upstream versions: a
version of a strictly newer line than the latest tracked line is collected,
the scan stops at the latest tracked line, and a malformed version (or a
nil latest-tracked value) panics on dereference. -/
def checkNewerGo (lt? : Option SemV) : List CV → Except GoErr (List SemV)
  | [] => .ok []
  | v :: rest =>
    match newVersion v.version with
    | none => .error .panicNilDeref
    | some sv =>
      match lt? with
      | none => .error .panicNilDeref
      | some lt0 =>
        if sv.major > lt0.major ∨ (sv.major = lt0.major ∧ sv.minor > lt0.minor) then
          (checkNewerGo lt? rest).map (sv :: ·)
        else if sv.major = lt0.major ∧ sv.minor = lt0.minor then
          .ok []
        else
          checkNewerGo lt? rest

/-- main.go `checkNewerUntracked` (advisory: its value is only logged, but
its panics are real). -/
def checkNewerUntracked (tracked : List VStr) (upstreamVersions : List CV) :
    Except GoErr (List SemV) := do
  let lt? ← getLatestTracked tracked
  if tracked = [] then
    .ok []
  else
    checkNewerGo lt? upstreamVersions

/-- The stored-version detection of main.go `collectNonStoredVersions`: an
upstream parsed version `pv` is already stored when some stored entry's
string equals `pv`'s canonical rendering either verbatim or after
stripping the package-revision suffix. -/
def storedMatchRaw (stored : List CV) (pv : SemV) : Bool :=
  stored.any fun s =>
    s.version == VStr.canon pv none || stripPackageVersion s.version == VStr.canon pv none

/-- The `newer` branch of main.go `collectNonStoredVersions` for one
not-yet-stored parsed upstream version `pv`: with no stored versions the
version is selected; otherwise the newest stored version string is
stripped and parsed — skipping this upstream version on a parse failure —
and the version is selected exactly when strictly greater. `tailRes` is
the result of the remainder of the loop. -/
def newerStep (stored : List CV) (pv : SemV) (v : CV)
    (tailRes : Except GoErr (List CV)) : Except GoErr (List CV) :=
  match stored with
  | [] => tailRes.map (v :: ·)
  | s0 :: _ =>
    match newVersion (stripPackageVersion s0.version) with
    | none => tailRes
    | some sl =>
      if semverGT pv sl then tailRes.map (v :: ·)
      else tailRes

/-- Loop of main.go `collectNonStoredVersions`.  `first` tracks `i == 0`.
A malformed upstream entry is logged but NOT skipped; the subsequent
`parsedVersion.String()` dereferences nil as soon as the stored list is
nonempty (with an empty stored list the stored loop never runs, and the
malformed entry flows into the mode branches, where only `newer`'s
re-parse skips it). -/
def collectGo (stored : List CV) (fetch : Fetch) : List CV → Bool → Except GoErr (List CV)
  | [], _ => .ok []
  | v :: rest, first =>
    match newVersion v.version with
    | none =>
      if stored = [] then
        if fetch = .newer then collectGo stored fetch rest false
        else if fetch = .all then (collectGo stored fetch rest false).map (v :: ·)
        else .ok [v]
      else
        .error .panicNilDeref
    | some pv =>
      if storedMatchRaw stored pv && first && isLatestMode fetch then
        .ok []
      else if storedMatchRaw stored pv then
        collectGo stored fetch rest false
      else if fetch = .newer then
        newerStep stored pv v (collectGo stored fetch rest false)
      else if fetch = .all then
        (collectGo stored fetch rest false).map (v :: ·)
      else
        .ok [v]

/-- main.go `collectNonStoredVersions`. -/
def collectNonStoredVersions (versions stored : List CV) (fetch : Fetch) :
    Except GoErr (List CV) :=
  collectGo stored fetch versions true

/-- Tracked-lines branch of main.go `filterVersions`: per tracked line,
bucket both upstream and stored versions and select within the bucket,
concatenating in tracked-line order. -/
def filterTrackedGo (stripped stored : List CV) (fetch : Fetch) :
    List VStr → Except GoErr (List CV)
  | [] => .ok []
  | t :: ts => do
    let ns ← collectNonStoredVersions (collectTrackedBucket t stripped)
      (collectTrackedBucket t stored) fetch
    let restNs ← filterTrackedGo stripped stored fetch ts
    .ok (ns ++ restNs)

/-- main.go `filterVersions`.  The stored versions (read from index.yaml by
`getStoredVersions`) are passed as a parameter; the read is modelled as
succeeding.  Line 464 indexes `upstreamVersions[0]` before anything else,
so the empty upstream list panics rather than producing an error. -/
def filterVersions (upstreamVersions : List CV) (fetch : Fetch)
    (tracked : List VStr) (stored : List CV) : Except GoErr (List CV) :=
  match upstreamVersions with
  | [] => .error .panicIndexOutOfRange
  | _ :: _ =>
    let stripped := stripPreRelease upstreamVersions
    (if tracked ≠ [] then checkNewerUntracked tracked stripped else .ok []) >>= fun _ =>
    if stripped = [] then
      .error .emptyUpstream
    else if tracked ≠ [] then
      filterTrackedGo stripped stored fetch tracked
    else
      collectNonStoredVersions stripped stored fetch

/-! ## Charts and annotations (reconciler data model) -/

/-- Model of a chart dependency: the fields `addAnnotations` touches. -/
structure Dep where
  dname : String
  repository : String
deriving DecidableEq, Repr

/-- Model of helm's chart.Chart, restricted to the fields the engine
reads or writes: name, Metadata.Version, Metadata.Icon,
Metadata.KubeVersion, Metadata.Annotations, Metadata.Dependencies and the
chart's file list (file contents abstracted to a numeric token). -/
structure ChartM where
  cname : String
  version : VStr
  icon : String
  kubeVersion : String
  annotations : List (String × String)
  deps : List Dep
  files : List (String × Nat)
deriving DecidableEq, Repr

/-- main.go ChartWrapper: a chart plus its Modified flag. -/
structure ChartW where
  chart : ChartM
  modified : Bool
deriving DecidableEq, Repr

/-- Lookup in a Go string map modelled as an association list. -/
def annGet (anns : List (String × String)) (k : String) : Option String :=
  (anns.find? fun p => p.1 == k).map (·.2)

/-- Map update: replace the value at a key, appending when absent. -/
def annSet (anns : List (String × String)) (k v : String) : List (String × String) :=
  if (anns.find? fun p => p.1 == k).isSome then
    anns.map fun p => if p.1 == k then (k, v) else p
  else
    anns ++ [(k, v)]

/-- Map deletion. -/
def annRemove (anns : List (String × String)) (k : String) : List (String × String) :=
  anns.filter fun p => !(p.1 == k)

/-- The catalog.cattle.io annotation keys of main.go. -/
def annotationAutoInstall : String := "catalog.cattle.io/auto-install"

def annotationCertified : String := "catalog.cattle.io/certified"

def annotationDisplayName : String := "catalog.cattle.io/display-name"

def annotationExperimental : String := "catalog.cattle.io/experimental"

def featuredKey : String := "catalog.cattle.io/featured"

def annotationHidden : String := "catalog.cattle.io/hidden"

def annotationKubeVersion : String := "catalog.cattle.io/kube-version"

def annotationNamespaceKey : String := "catalog.cattle.io/namespace"

def annotationReleaseName : String := "catalog.cattle.io/release-name"

/-- Modelled from the spec: `conform.AnnotateChart` (pkg/conform is not
part of the provided source).  It sets an annotation and reports whether
anything was "added or changed"; with `override` false an existing value
is left alone. -/
def annotateChart (c : ChartM) (k v : String) (override : Bool) : ChartM × Bool :=
  match annGet c.annotations k with
  | some cur =>
    if cur == v then (c, false)
    else if override then ({ c with annotations := annSet c.annotations k v }, true)
    else (c, false)
  | none => ({ c with annotations := annSet c.annotations k v }, true)

/-- Modelled from the spec: `conform.DeannotateChart` (pkg/conform is not
part of the provided source).  It removes an annotation, "marking each
modified only if the annotation was actually present and removed"; a
nonempty `v` restricts removal to that value. -/
def deannotateChart (c : ChartM) (k v : String) : ChartM × Bool :=
  match annGet c.annotations k with
  | none => (c, false)
  | some cur =>
    if v == "" || cur == v then ({ c with annotations := annRemove c.annotations k }, true)
    else (c, false)

/-! ## Reconciler (main.go integrateCharts and helpers) -/

/-- Modelled from the spec: the chart.Metadata override carried in
UpstreamYaml.ChartYaml and applied by `conform.OverlayChartMetadata`
(pkg/conform is not part of the provided source): "apply metadata
overrides ... onto the artifact's declaration, overwriting fields present
in the override set". -/
structure MetaOv where
  kubeVersionOv : Option String
  iconOv : Option String
  annotationsOv : List (String × String)
deriving DecidableEq, Repr

/-- Modelled from the spec: `conform.OverlayChartMetadata`. -/
def overlayChartMetadata (c : ChartM) (ov : MetaOv) : ChartM :=
  let c1 := match ov.kubeVersionOv with
    | some k => { c with kubeVersion := k }
    | none => c
  let c2 := match ov.iconOv with
    | some i => { c1 with icon := i }
    | none => c1
  ov.annotationsOv.foldl
    (fun acc kv => { acc with annotations := annSet acc.annotations kv.1 kv.2 }) c2

/-- Model of the UpstreamYaml fields read by the reconciler. -/
structure UpstreamYamlM where
  autoInstall : String
  experimental : Bool
  hidden : Bool
  remoteDependencies : Bool
  releaseName : String
  nspace : String
  kubeVersionUp : String
  chartMeta : MetaOv
  packageVersion : Nat
deriving DecidableEq, Repr

/-- Model of main.go PackageWrapper, restricted to the fields the
reconciler reads.  The package's overlay files (read from disk by
GetOverlayFiles) are carried as data. -/
structure PW where
  pname : String
  displayName : String
  parsedVendor : String
  overlayFiles : List (String × Nat)
  upstream : UpstreamYamlM
deriving DecidableEq, Repr

/-- main.go `applyOverlayFiles`: replace the chart file at each overlay
path when present, append it otherwise (the Go function's error result is
always nil). -/
def applyOverlayFiles (overlayFiles : List (String × Nat)) (c : ChartM) : ChartM :=
  overlayFiles.foldl
    (fun acc pf =>
      if acc.files.any fun f => f.1 == pf.1 then
        { acc with files := acc.files.map fun f => if f.1 == pf.1 then (f.1, pf.2) else f }
      else
        { acc with files := acc.files ++ [pf] })
    c

/-- Modelled from the spec: `conform.GeneratePackageVersion` (pkg/conform
is not part of the provided source) appends the configured package
revision suffix to the chart's version string. -/
def generatePackageVersion (v : VStr) (packageVersion : Nat) : Except GoErr VStr :=
  match v with
  | .canon sv _ => .ok (.canon sv (some packageVersion))
  | .malformed _ => .error .generateVersionFailed

/-- Modelled from the spec: `conform.ApplyChartAnnotations` (pkg/conform is
not part of the provided source): apply the computed annotation set
idempotently, only changing an annotation whose new value differs from the
current one, and leaving annotations outside the set alone. -/
def applyChartAnns (c : ChartM) (anns : List (String × String)) : ChartM :=
  anns.foldl
    (fun acc kv =>
      if annGet acc.annotations kv.1 == some kv.2 then acc
      else { acc with annotations := annSet acc.annotations kv.1 kv.2 })
    c

/-- main.go `addAnnotations`: build the annotation set from the package
configuration (auto-install, experimental, hidden, certified,
display-name, release-name, namespace, kube-version), rewrite dependency
repositories to local paths unless RemoteDependencies is set, apply the
package-revision suffix to the version when configured, and apply the
annotation set to the chart. -/
def addAnns (pw : PW) (c : ChartM) : Except GoErr ChartM :=
  let anns :=
    (if pw.upstream.autoInstall != "" then [(annotationAutoInstall, pw.upstream.autoInstall)] else [])
    ++ (if pw.upstream.experimental then [(annotationExperimental, "true")] else [])
    ++ (if pw.upstream.hidden then [(annotationHidden, "true")] else [])
    ++ [(annotationCertified, "partner"), (annotationDisplayName, pw.displayName)]
    ++ [(annotationReleaseName, if pw.upstream.releaseName != "" then pw.upstream.releaseName else pw.pname)]
    ++ (if pw.upstream.nspace != "" then [(annotationNamespaceKey, pw.upstream.nspace)] else [])
    ++ (if pw.upstream.kubeVersionUp != "" then [(annotationKubeVersion, pw.upstream.kubeVersionUp)]
        else if c.kubeVersion != "" then [(annotationKubeVersion, c.kubeVersion)] else [])
  let c1 :=
    if !pw.upstream.remoteDependencies then
      { c with deps := c.deps.map fun d => { d with repository := String.append "file://./charts/" d.dname } }
    else c
  match pw.upstream.packageVersion with
  | 0 => .ok (applyChartAnns c1 anns)
  | _ + 1 => do
    let nv ← generatePackageVersion c1.version pw.upstream.packageVersion
    .ok (applyChartAnns { c1 with version := nv } anns)

/-- Modelled from the spec: `icons.EnsureIconDownloaded` (pkg/icons is not
part of the provided source) ensures a local icon file exists for the
package and returns its local path, which depends on the package name. -/
def ensureIconDownloadedM (_iconRef pkgName : String) : String :=
  String.append "assets/icons/" pkgName

/-- main.go `ensureIcon`: point the chart's icon at the local icon path,
marking the wrapper modified when the reference actually changes. -/
def ensureIconStep (pw : PW) (cw : ChartW) : ChartW :=
  let localIconUrl := String.append "file://" (ensureIconDownloadedM cw.chart.icon pw.pname)
  if cw.chart.icon == localIconUrl then cw
  else { chart := { cw.chart with icon := localIconUrl }, modified := true }

/-- The per-fetched-chart body of main.go `integrateCharts`: overlay files,
metadata overlay, annotations, icon localization, and the unconditional
`newChart.Modified = true`. -/
def processNewChart (pw : PW) (cw : ChartW) : Except GoErr ChartW := do
  let c1 := applyOverlayFiles pw.overlayFiles cw.chart
  let c2 := overlayChartMetadata c1 pw.upstream.chartMeta
  let c3 ← addAnns pw c2
  let cw4 := ensureIconStep pw { chart := c3, modified := cw.modified }
  .ok { chart := cw4.chart, modified := true }

/-! ## Featured annotation propagation (main.go ensureFeaturedAnnotation) -/

/-- The scan loop of main.go ensureFeaturedAnnotation on the list of
featured values in existing-chart order: a value differing from a nonempty
accumulator is a conflict; otherwise the accumulator is set to the value
(even when the value is empty). -/
def scanVals : List String → String → Except GoErr String
  | [], acc => .ok acc
  | v :: rest, acc =>
    if acc ≠ "" ∧ v ≠ acc then .error .featuredConflict
    else scanVals rest v

/-- The featured-annotation values carried by a chart list, in order. -/
def featuredValuesOf (cs : List ChartW) : List String :=
  cs.filterMap fun cw => annGet cw.chart.annotations featuredKey

/-- Apply a function to the last element of a list. -/
def updateLast (f : α → α) : List α → List α
  | [] => []
  | [x] => [f x]
  | x :: y :: rest => x :: updateLast f (y :: rest)

/-- main.go ensureFeaturedAnnotation (the Lean name drops the final word of
the Go name).  Scan the existing charts for a featured value, failing on
two different values; when a (nonempty) value was found, write it onto the
LAST new chart — indexing newCharts[len(newCharts)-1] without a length
check, which panics on an empty fetched list — and remove the annotation
from every existing chart that carries it.  The in-place Go mutation is
modelled by returning the updated lists; on an error or panic nothing has
been mutated yet, so the input lists are returned unchanged. -/
def ensureFeaturedAnn (existing newCharts : List ChartW) :
    Option GoErr × List ChartW × List ChartW :=
  match scanVals (featuredValuesOf existing) "" with
  | .error e => (some e, existing, newCharts)
  | .ok v =>
    if v = "" then (none, existing, newCharts)
    else if newCharts.isEmpty then (some .panicIndexOutOfRange, existing, newCharts)
    else
      let newCharts' := updateLast
        (fun cw =>
          let r := annotateChart cw.chart featuredKey v true
          { chart := r.1, modified := cw.modified || r.2 }) newCharts
      let existing' := existing.map fun cw =>
        let r := deannotateChart cw.chart featuredKey ""
        { chart := r.1, modified := cw.modified || r.2 }
      (none, existing', newCharts')

/-- main.go `integrateCharts`: process each fetched chart, then run the
featured-annotation propagation over the whole set.  Returns the updated
(existing, new) lists. -/
def integrateCharts (pw : PW) (existing newCharts : List ChartW) :
    Except GoErr (List ChartW × List ChartW) := do
  let processed ← newCharts.mapM (processNewChart pw)
  match ensureFeaturedAnn existing processed with
  | (some e, _, _) => .error e
  | (none, ex, nw) => .ok (ex, nw)

/-! ## Storage writes (main.go writeCharts) -/

/-- The slice of durable storage a writeCharts call touches: the tgz
archives present in the vendor's assets directory (keyed by chart name and
version, mirroring the name-version.tgz filename of getTgzFilename), and
the per-version unpacked directories under charts/vendor/name. -/
structure Storage where
  tgzs : List (String × VStr)
  chartDirs : List VStr
deriving DecidableEq, Repr

/-- The storage operations a writeCharts call performed: the unpacked
directories deleted by the initial RemoveAll, the tgz archives written by
chartutil.Save, and the directories re-created by conform.Gunzip. -/
structure WriteTrace where
  removedDirs : List VStr
  writtenTgzs : List (String × VStr)
  unpackedDirs : List VStr
deriving DecidableEq, Repr

/-- The name+version key of getTgzFilename. -/
def tgzKey (cw : ChartW) : String × VStr := (cw.chart.cname, cw.chart.version)

/-- The conditional tgz write of main.go `writeCharts` for one chart:
chartutil.Save runs when the chart is modified or its archive is absent
(returning the new state and the written keys). -/
def tgzStep (st : Storage) (cw : ChartW) : Storage × List (String × VStr) :=
  if cw.modified || !st.tgzs.contains (tgzKey cw) then
    ({ st with tgzs := if st.tgzs.contains (tgzKey cw) then st.tgzs else st.tgzs ++ [tgzKey cw] },
      [tgzKey cw])
  else (st, [])

/-- The conditional unpack of main.go `writeCharts` for one chart:
conform.Gunzip runs when the chart is modified or its directory is absent
in the running state. -/
def dirStep (st : Storage) (cw : ChartW) : Storage × List VStr :=
  if cw.modified || !st.chartDirs.contains cw.chart.version then
    ({ st with chartDirs :=
        if st.chartDirs.contains cw.chart.version then st.chartDirs
        else st.chartDirs ++ [cw.chart.version] },
      [cw.chart.version])
  else (st, [])

/-- Per-chart loop of main.go `writeCharts`: the conditional tgz write
followed by the conditional unpack, chart by chart. -/
def writeChartsLoop : List ChartW → Storage → Storage × List (String × VStr) × List VStr
  | [], st => (st, [], [])
  | cw :: rest, st =>
    let t := tgzStep st cw
    let d := dirStep t.1 cw
    let r := writeChartsLoop rest d.1
    (r.1, t.2 ++ r.2.1, d.2 ++ r.2.2)

/-- main.go `writeCharts`: wipe the whole charts/vendor/name directory
(os.RemoveAll, unconditionally), then run the per-chart create/update
loop.  Returns the final storage state and the trace of performed
operations. -/
def writeCharts (st : Storage) (chartWrappers : List ChartW) : Storage × WriteTrace :=
  let wiped : Storage := { tgzs := st.tgzs, chartDirs := [] }
  let r := writeChartsLoop chartWrappers wiped
  (r.1, { removedDirs := st.chartDirs, writtenTgzs := r.2.1, unpackedDirs := r.2.2 })

/-! ## Equality of results -/

deriving instance DecidableEq for Except

/-! ## Basic lemmas about the version filter -/

theorem stripPackageVersion_canon (v : SemV) (r : Option Nat) :
    stripPackageVersion (VStr.canon v r) = VStr.canon v none := rfl

/-- The raw-or-stripped stored check of the code collapses to the purely
stripped check: a verbatim match is in particular a stripped match. -/
theorem storedMatchRaw_eq_strip (stored : List CV) (pv : SemV) :
    storedMatchRaw stored pv
      = stored.any (fun s => stripPackageVersion s.version == VStr.canon pv none) := by
  unfold storedMatchRaw
  induction stored with
  | nil => rfl
  | cons s rest ih =>
    simp only [List.any_cons, ih]
    by_cases h : s.version = VStr.canon pv none
    · rw [h, stripPackageVersion_canon]
      simp
    · have : (s.version == VStr.canon pv none) = false := by
        simpa using h
      rw [this]
      simp

/-- Membership in the stripPreRelease output. -/
theorem mem_stripPreRelease {cv : CV} {versions : List CV}
    (h : cv ∈ stripPreRelease versions) :
    cv ∈ versions ∧ ∃ s, newVersion cv.version = some s ∧ s.pre = "" := by
  unfold stripPreRelease at h
  rw [List.mem_filter] at h
  refine ⟨h.1, ?_⟩
  rcases h with ⟨-, hf⟩
  cases hs : newVersion cv.version with
  | none => rw [hs] at hf; simp at hf
  | some s =>
    rw [hs] at hf
    exact ⟨s, rfl, by simpa using hf⟩

/-- Every member of the stripPreRelease output parses. -/
theorem stripPreRelease_parses {cv : CV} {versions : List CV}
    (h : cv ∈ stripPreRelease versions) : ∃ s, newVersion cv.version = some s :=
  ⟨(mem_stripPreRelease h).2.choose, (mem_stripPreRelease h).2.choose_spec.1⟩

/-- A tracked-line bucket is a subset of the scanned list. -/
theorem collectTrackedBucket_subset (t : VStr) :
    ∀ l : List CV, ∀ cv ∈ collectTrackedBucket t l, cv ∈ l := by
  intro l
  induction l with
  | nil => intro cv h; simp [collectTrackedBucket] at h
  | cons v rest ih =>
    intro cv h
    cases hv : newVersion v.version with
    | none =>
      simp only [collectTrackedBucket, hv] at h
      exact List.mem_cons_of_mem _ (ih cv h)
    | some sv =>
      cases ht : newVersion t with
      | none =>
        simp only [collectTrackedBucket, hv, ht] at h
        exact List.mem_cons_of_mem _ (ih cv h)
      | some st =>
        simp only [collectTrackedBucket, hv, ht] at h
        by_cases h1 : sv.major = st.major ∧ sv.minor = st.minor
        · rw [if_pos h1] at h
          rcases List.mem_cons.mp h with h2 | h2
          · exact h2 ▸ List.mem_cons_self _ _
          · exact List.mem_cons_of_mem _ (ih cv h2)
        · rw [if_neg h1] at h
          by_cases h2 : sv.major < st.major ∨ (sv.major = st.major ∧ sv.minor < st.minor)
          · rw [if_pos h2] at h; simp at h
          · rw [if_neg h2] at h; exact List.mem_cons_of_mem _ (ih cv h)


/-! ## Result-shape utilities -/

theorem exceptOk_inj {ε α : Type} {a b : α} (h : (Except.ok a : Except ε α) = .ok b) :
    a = b := by
  injection h

theorem exceptMap_ok {ε α β : Type} {f : α → β} {e : Except ε α} {r : β}
    (h : e.map f = .ok r) : ∃ a, e = .ok a ∧ r = f a := by
  cases e with
  | error x => simp [Except.map] at h
  | ok a =>
    refine ⟨a, rfl, ?_⟩
    simp only [Except.map] at h
    exact (exceptOk_inj h).symm

/-! ## Step equations for collectGo -/

theorem collectGo_nil (stored : List CV) (fetch : Fetch) (first : Bool) :
    collectGo stored fetch [] first = .ok [] := rfl

theorem collectGo_cons_none {v : CV} (stored : List CV) (fetch : Fetch)
    (rest : List CV) (first : Bool) (hv : newVersion v.version = none) :
    collectGo stored fetch (v :: rest) first =
      if stored = [] then
        if fetch = .newer then collectGo stored fetch rest false
        else if fetch = .all then (collectGo stored fetch rest false).map (v :: ·)
        else .ok [v]
      else .error .panicNilDeref := by
  simp only [collectGo, hv]

theorem collectGo_cons_some {v : CV} {pv : SemV} (stored : List CV) (fetch : Fetch)
    (rest : List CV) (first : Bool) (hv : newVersion v.version = some pv) :
    collectGo stored fetch (v :: rest) first =
      if storedMatchRaw stored pv && first && isLatestMode fetch then .ok []
      else if storedMatchRaw stored pv then collectGo stored fetch rest false
      else if fetch = .newer then newerStep stored pv v (collectGo stored fetch rest false)
      else if fetch = .all then (collectGo stored fetch rest false).map (v :: ·)
      else .ok [v] := by
  simp only [collectGo, hv]

theorem newerStep_nil (pv : SemV) (v : CV) (t : Except GoErr (List CV)) :
    newerStep [] pv v t = t.map (v :: ·) := rfl

theorem newerStep_cons_none {s0 : CV} (tl : List CV) (pv : SemV) (v : CV)
    (t : Except GoErr (List CV)) (hsl : newVersion (stripPackageVersion s0.version) = none) :
    newerStep (s0 :: tl) pv v t = t := by
  simp only [newerStep, hsl]

theorem newerStep_cons_some {s0 : CV} {sl : SemV} (tl : List CV) (pv : SemV) (v : CV)
    (t : Except GoErr (List CV)) (hsl : newVersion (stripPackageVersion s0.version) = some sl) :
    newerStep (s0 :: tl) pv v t =
      if semverGT pv sl then t.map (v :: ·) else t := by
  simp only [newerStep, hsl]

/-- Whatever collectNonStoredVersions selects comes from the scanned
version list. -/
theorem collectGo_subset (stored : List CV) (fetch : Fetch) :
    ∀ (versions : List CV) (first : Bool) (res : List CV),
      collectGo stored fetch versions first = .ok res → ∀ cv ∈ res, cv ∈ versions := by
  intro versions
  induction versions with
  | nil =>
    intro first res h cv hcv
    rw [collectGo_nil] at h
    cases exceptOk_inj h
    simp at hcv
  | cons v rest ih =>
    intro first res h cv hcv
    have tailCase : collectGo stored fetch rest false = .ok res → cv ∈ v :: rest := by
      intro hr
      exact List.mem_cons_of_mem _ (ih false res hr cv hcv)
    have consCase : ∀ r : List CV, collectGo stored fetch rest false = .ok r →
        res = v :: r → cv ∈ v :: rest := by
      intro r hr hres
      subst hres
      rcases List.mem_cons.mp hcv with h2 | h2
      · exact h2 ▸ List.mem_cons_self _ _
      · exact List.mem_cons_of_mem _ (ih false r hr cv h2)
    have mapCase : (collectGo stored fetch rest false).map (v :: ·) = .ok res →
        cv ∈ v :: rest := by
      intro hm
      obtain ⟨r, hr, hres⟩ := exceptMap_ok hm
      exact consCase r hr hres
    have singCase : res = [v] → cv ∈ v :: rest := by
      intro hres
      subst hres
      rw [List.mem_singleton.mp hcv]
      exact List.mem_cons_self _ _
    cases hv : newVersion v.version with
    | none =>
      rw [collectGo_cons_none stored fetch rest first hv] at h
      by_cases hs : stored = []
      · rw [if_pos hs] at h
        by_cases hn : fetch = .newer
        · rw [if_pos hn] at h
          exact tailCase h
        · rw [if_neg hn] at h
          by_cases ha : fetch = .all
          · rw [if_pos ha] at h
            exact mapCase h
          · rw [if_neg ha] at h
            exact singCase (exceptOk_inj h).symm
      · rw [if_neg hs] at h
        exact Except.noConfusion h
    | some pv =>
      rw [collectGo_cons_some stored fetch rest first hv] at h
      by_cases hb : (storedMatchRaw stored pv && first && isLatestMode fetch) = true
      · rw [if_pos hb] at h
        cases (exceptOk_inj h).symm
        simp at hcv
      · rw [if_neg hb] at h
        by_cases hst : storedMatchRaw stored pv = true
        · rw [if_pos hst] at h
          exact tailCase h
        · rw [if_neg hst] at h
          by_cases hn : fetch = .newer
          · rw [if_pos hn] at h
            cases hss : stored with
            | nil =>
              rw [hss, newerStep_nil] at h
              rw [← hss] at h
              exact mapCase h
            | cons s0 tl =>
              rw [hss] at h
              cases hsl : newVersion (stripPackageVersion s0.version) with
              | none =>
                rw [newerStep_cons_none tl pv v _ hsl] at h
                rw [← hss] at h
                exact tailCase h
              | some sl =>
                rw [newerStep_cons_some tl pv v _ hsl] at h
                rw [← hss] at h
                by_cases hgt : semverGT pv sl = true
                · rw [if_pos hgt] at h
                  exact mapCase h
                · rw [if_neg hgt] at h
                  exact tailCase h
          · rw [if_neg hn] at h
            by_cases ha : fetch = .all
            · rw [if_pos ha] at h
              exact mapCase h
            · rw [if_neg ha] at h
              exact singCase (exceptOk_inj h).symm

/-- newerStep never fails on an ok tail. -/
theorem newerStep_ok (stored : List CV) (pv : SemV) (v : CV) (r : List CV) :
    ∃ r2, newerStep stored pv v (.ok r) = .ok r2 := by
  cases stored with
  | nil => exact ⟨v :: r, rfl⟩
  | cons s0 tl =>
    cases hsl : newVersion (stripPackageVersion s0.version) with
    | none => exact ⟨r, newerStep_cons_none tl pv v _ hsl⟩
    | some sl =>
      by_cases hgt : semverGT pv sl = true
      · exact ⟨v :: r, by rw [newerStep_cons_some tl pv v _ hsl, if_pos hgt]; rfl⟩
      · exact ⟨r, by rw [newerStep_cons_some tl pv v _ hsl, if_neg hgt]⟩

/-- On a version list whose entries all parse, collectNonStoredVersions
never aborts. -/
theorem collectGo_ok (stored : List CV) (fetch : Fetch) :
    ∀ (versions : List CV) (first : Bool),
      (∀ cv ∈ versions, ∃ pv, newVersion cv.version = some pv) →
      ∃ res, collectGo stored fetch versions first = .ok res := by
  intro versions
  induction versions with
  | nil => intro first _; exact ⟨[], collectGo_nil _ _ _⟩
  | cons v rest ih =>
    intro first hp
    obtain ⟨pv, hv⟩ := hp v (List.mem_cons_self _ _)
    obtain ⟨r, hr⟩ := ih false fun cv hcv => hp cv (List.mem_cons_of_mem _ hcv)
    rw [collectGo_cons_some stored fetch rest first hv]
    by_cases hb : (storedMatchRaw stored pv && first && isLatestMode fetch) = true
    · exact ⟨[], by rw [if_pos hb]⟩
    · rw [if_neg hb]
      by_cases hst : storedMatchRaw stored pv = true
      · exact ⟨r, by rw [if_pos hst]; exact hr⟩
      · rw [if_neg hst]
        by_cases hn : fetch = .newer
        · rw [if_pos hn, hr]
          exact newerStep_ok stored pv v r
        · rw [if_neg hn]
          by_cases ha : fetch = .all
          · exact ⟨v :: r, by rw [if_pos ha, hr]; rfl⟩
          · exact ⟨[v], by rw [if_neg ha]⟩

/-- The selection predicate of the `All` fetch mode, as the spec states
it: an upstream version is selected when no stored version's string,
stripped of any package-revision suffix, equals the upstream version's
canonical rendering. -/
def allModeSelects (stored : List CV) (cv : CV) : Bool :=
  match newVersion cv.version with
  | some pv => !(stored.any fun s => stripPackageVersion s.version == VStr.canon pv none)
  | none => false

/-- `All` mode realises exactly the not-already-stored filter. -/
theorem collectGo_all (stored : List CV) :
    ∀ (versions : List CV) (first : Bool),
      (∀ cv ∈ versions, ∃ pv, newVersion cv.version = some pv) →
      collectGo stored .all versions first = .ok (versions.filter (allModeSelects stored)) := by
  intro versions
  induction versions with
  | nil => intro first _; rfl
  | cons v rest ih =>
    intro first hp
    obtain ⟨pv, hv⟩ := hp v (List.mem_cons_self _ _)
    have hr := ih false fun cv hcv => hp cv (List.mem_cons_of_mem _ hcv)
    rw [collectGo_cons_some stored .all rest first hv]
    have hb : (storedMatchRaw stored pv && first && isLatestMode .all) = false := by
      simp [isLatestMode]
    rw [hb]
    simp only [Bool.false_eq_true, if_false]
    have hpred : allModeSelects stored v = !(storedMatchRaw stored pv) := by
      unfold allModeSelects
      rw [hv, storedMatchRaw_eq_strip]
    by_cases hst : storedMatchRaw stored pv = true
    · rw [if_pos hst, hr]
      have : List.filter (allModeSelects stored) (v :: rest)
          = List.filter (allModeSelects stored) rest := by
        rw [List.filter_cons]
        rw [hpred, hst]
        simp
      rw [this]
    · rw [if_neg hst]
      rw [if_neg (by decide : ¬ (Fetch.all : Fetch) = Fetch.newer)]
      rw [if_pos (by trivial), hr]
      have : List.filter (allModeSelects stored) (v :: rest)
          = v :: List.filter (allModeSelects stored) rest := by
        rw [List.filter_cons, hpred]
        have : storedMatchRaw stored pv = false := by
          simpa using hst
        rw [this]
        simp
      rw [this]
      rfl

/-- The selection predicate of the `Newer` fetch mode: strictly newer (by
semver precedence) than the parsed newest stored version `sl`. -/
def newerSelects (sl : SemV) (cv : CV) : Bool :=
  match newVersion cv.version with
  | some pv => semverGT pv sl
  | none => false

/-- A stored match (by raw or stripped string equality) pins the upstream
semver to one carried by a stored entry. -/
theorem storedMatchRaw_spec {stored : List CV} {pv : SemV}
    (h : storedMatchRaw stored pv = true) :
    ∃ s ∈ stored, newVersion (stripPackageVersion s.version) = some pv := by
  rw [storedMatchRaw_eq_strip] at h
  obtain ⟨s, hs, he⟩ := List.any_eq_true.mp h
  refine ⟨s, hs, ?_⟩
  rw [beq_iff_eq.mp he]
  rfl

/-- `Newer` mode with a nonempty stored list whose newest entry parses to
`sl`, none of whose (parsed, stripped) entries exceeds `sl`: the selection
is exactly the strict-greater-than-`sl` filter. -/
theorem collectGo_newer (s0 : CV) (tl : List CV) (sl : SemV)
    (hsl : newVersion (stripPackageVersion s0.version) = some sl)
    (hmax : ∀ s ∈ s0 :: tl, ∀ ps, newVersion (stripPackageVersion s.version) = some ps →
      ¬ semvLT sl ps) :
    ∀ (versions : List CV) (first : Bool),
      (∀ cv ∈ versions, ∃ pv, newVersion cv.version = some pv) →
      collectGo (s0 :: tl) .newer versions first
        = .ok (versions.filter (newerSelects sl)) := by
  intro versions
  induction versions with
  | nil => intro first _; rfl
  | cons v rest ih =>
    intro first hp
    obtain ⟨pv, hv⟩ := hp v (List.mem_cons_self _ _)
    have hr := ih false fun cv hcv => hp cv (List.mem_cons_of_mem _ hcv)
    rw [collectGo_cons_some (s0 :: tl) .newer rest first hv]
    have hb : (storedMatchRaw (s0 :: tl) pv && first && isLatestMode .newer) = false := by
      simp [isLatestMode]
    rw [hb]
    simp only [Bool.false_eq_true, if_false]
    have hpred : newerSelects sl v = semverGT pv sl := by
      unfold newerSelects
      rw [hv]
    by_cases hst : storedMatchRaw (s0 :: tl) pv = true
    · rw [if_pos hst, hr]
      obtain ⟨s, hs, hps⟩ := storedMatchRaw_spec hst
      have hnle : ¬ semvLT sl pv := hmax s hs pv hps
      have : newerSelects sl v = false := by
        rw [hpred]
        unfold semverGT
        exact decide_eq_false hnle
      rw [List.filter_cons, this]
      simp
    · rw [if_neg hst]
      rw [if_pos (by trivial), hr, newerStep_cons_some tl pv v _ hsl]
      by_cases hgt : semverGT pv sl = true
      · rw [if_pos hgt, List.filter_cons, hpred, hgt]
        simp [Except.map]
      · rw [if_neg hgt, List.filter_cons, hpred]
        have : semverGT pv sl = false := by simpa using hgt
        rw [this]
        simp

/-- `Newer` mode with no stored versions selects every (parseable)
version. -/
theorem collectGo_newer_nilStored :
    ∀ (versions : List CV) (first : Bool),
      (∀ cv ∈ versions, ∃ pv, newVersion cv.version = some pv) →
      collectGo [] .newer versions first = .ok versions := by
  intro versions
  induction versions with
  | nil => intro first _; rfl
  | cons v rest ih =>
    intro first hp
    obtain ⟨pv, hv⟩ := hp v (List.mem_cons_self _ _)
    have hr := ih false fun cv hcv => hp cv (List.mem_cons_of_mem _ hcv)
    rw [collectGo_cons_some [] .newer rest first hv]
    have hstored : storedMatchRaw [] pv = false := rfl
    rw [hstored]
    simp only [Bool.false_and, Bool.false_eq_true, if_false]
    rw [if_pos (by trivial), hr, newerStep_nil]
    rfl

/-- In `Latest` mode the loop always terminates on the first version: it
breaks with nothing when that version is already stored and with exactly
that version otherwise. -/
theorem collectGo_latest_head (stored : List CV) (v0 : CV) (rest : List CV) (pv0 : SemV)
    (hv : newVersion v0.version = some pv0) :
    collectGo stored .latest (v0 :: rest) true
      = if storedMatchRaw stored pv0 then .ok [] else .ok [v0] := by
  rw [collectGo_cons_some stored .latest rest true hv]
  by_cases hst : storedMatchRaw stored pv0 = true
  · rw [if_pos hst]
    have hc : (storedMatchRaw stored pv0 && true && isLatestMode .latest) = true := by
      rw [hst]; rfl
    rw [hc, if_pos rfl, if_pos hst]
  · have hf : storedMatchRaw stored pv0 = false := by simpa using hst
    rw [hf]
    simp only [Bool.false_and, Bool.false_eq_true, if_false]
    rw [if_neg (by decide : ¬ (Fetch.latest : Fetch) = Fetch.newer)]
    rw [if_neg (by decide : ¬ (Fetch.latest : Fetch) = Fetch.all)]

/-! ## Lemmas about the featured-value scan -/

/-- The order-sensitive conflict condition actually implemented by the
scan: somewhere in the value sequence, a nonempty value is immediately
followed by a different value. -/
def adjacentConflict (vals : List String) : Prop :=
  ∃ pre a b post, vals = pre ++ a :: b :: post ∧ a ≠ "" ∧ b ≠ a

theorem scanVals_nil (acc : String) : scanVals [] acc = .ok acc := rfl

theorem scanVals_cons (v : String) (rest : List String) (acc : String) :
    scanVals (v :: rest) acc =
      if acc ≠ "" ∧ v ≠ acc then .error .featuredConflict else scanVals rest v := rfl

/-- The scan fails exactly on an adjacent conflict (relative to the
starting accumulator). -/
theorem scanVals_error_iff : ∀ (vals : List String) (acc : String),
    scanVals vals acc = .error .featuredConflict ↔
      ((∃ b post, vals = b :: post ∧ acc ≠ "" ∧ b ≠ acc) ∨ adjacentConflict vals) := by
  intro vals
  induction vals with
  | nil =>
    intro acc
    constructor
    · intro h
      exact absurd h (by simp [scanVals])
    · rintro (⟨b, post, hb, -, -⟩ | ⟨pre, a, b, post, hb, -, -⟩) <;> simp at hb
  | cons v rest ih =>
    intro acc
    rw [scanVals_cons]
    by_cases hc : acc ≠ "" ∧ v ≠ acc
    · rw [if_pos hc]
      constructor
      · intro _
        exact Or.inl ⟨v, rest, rfl, hc.1, hc.2⟩
      · intro _
        rfl
    · rw [if_neg hc, ih v]
      constructor
      · rintro (⟨b, post, hb, hv, hbv⟩ | ⟨pre, a, b, post, hb, ha, hba⟩)
        · exact Or.inr ⟨[], v, b, post, by rw [hb]; rfl, hv, hbv⟩
        · exact Or.inr ⟨v :: pre, a, b, post, by rw [hb]; rfl, ha, hba⟩
      · rintro (⟨b, post, hb, hacc, hbacc⟩ | ⟨pre, a, b, post, hb, ha, hba⟩)
        · injection hb with h1 h2
          subst h1
          exact absurd ⟨hacc, hbacc⟩ hc
        · cases pre with
          | nil =>
            simp only [List.nil_append] at hb
            injection hb with h1 h2
            subst h1
            exact Or.inl ⟨b, post, h2, ha, hba⟩
          | cons p0 pre2 =>
            simp only [List.cons_append] at hb
            injection hb with h1 h2
            exact Or.inr ⟨pre2, a, b, post, h2, ha, hba⟩

/-- The scan can only fail with the featured-conflict error. -/
theorem scanVals_error_conflict : ∀ (vals : List String) (acc : String) (e : GoErr),
    scanVals vals acc = .error e → e = .featuredConflict := by
  intro vals
  induction vals with
  | nil =>
    intro acc e h
    exact absurd h (by simp [scanVals])
  | cons v rest ih =>
    intro acc e h
    rw [scanVals_cons] at h
    by_cases hc : acc ≠ "" ∧ v ≠ acc
    · rw [if_pos hc] at h
      injection h with h1
      exact h1.symm
    · rw [if_neg hc] at h
      exact ih v e h

/-- Scanning a constant nonempty sequence from its own value succeeds. -/
theorem scanVals_const_aux {v : String} : ∀ vals : List String,
    (∀ x ∈ vals, x = v) → scanVals vals v = .ok v := by
  intro vals
  induction vals with
  | nil => intro _; rfl
  | cons w rest ih =>
    intro hall
    have hw : w = v := hall w (List.mem_cons_self _ _)
    subst hw
    rw [scanVals_cons, if_neg (by simp)]
    exact ih fun x hx => hall x (List.mem_cons_of_mem _ hx)

/-- Scanning a nonempty constant sequence from the empty accumulator
returns the constant. -/
theorem scanVals_const {v : String} (w : String) (rest : List String)
    (hall : ∀ x ∈ w :: rest, x = v) :
    scanVals (w :: rest) "" = .ok v := by
  have hw : w = v := hall w (List.mem_cons_self _ _)
  rw [scanVals_cons, if_neg (by simp), hw]
  exact scanVals_const_aux rest fun x hx => hall x (List.mem_cons_of_mem _ hx)

/-- A successful scan over nonempty values starting from a nonempty
accumulator forces every value to equal the accumulator. -/
theorem scanVals_ok_forces {r : String} : ∀ (vals : List String) (acc : String),
    acc ≠ "" → (∀ x ∈ vals, x ≠ "") → scanVals vals acc = .ok r →
    r = acc ∧ ∀ x ∈ vals, x = acc := by
  intro vals
  induction vals with
  | nil =>
    intro acc hacc _ h
    exact ⟨(exceptOk_inj h).symm, by simp⟩
  | cons w rest ih =>
    intro acc hacc hne h
    rw [scanVals_cons] at h
    by_cases hc : acc ≠ "" ∧ w ≠ acc
    · rw [if_pos hc] at h
      exact Except.noConfusion h
    · rw [if_neg hc] at h
      have hw : w = acc := by
        by_contra hcon
        exact hc ⟨hacc, hcon⟩
      subst hw
      obtain ⟨hr, hrest⟩ := ih w hacc (fun x hx => hne x (List.mem_cons_of_mem _ hx)) h
      exact ⟨hr, fun x hx => by
        rcases List.mem_cons.mp hx with h1 | h1
        · exact h1
        · exact hrest x h1⟩

/-- A successful scan from the empty accumulator over nonempty values:
either there were no values at all, or they all equal the nonempty
result. -/
theorem scanVals_ok_shape {r : String} : ∀ vals : List String,
    (∀ x ∈ vals, x ≠ "") → scanVals vals "" = .ok r →
    (vals = [] ∧ r = "") ∨ (r ≠ "" ∧ ∀ x ∈ vals, x = r) := by
  intro vals
  cases vals with
  | nil =>
    intro _ h
    exact Or.inl ⟨rfl, (exceptOk_inj h).symm⟩
  | cons w rest =>
    intro hne h
    rw [scanVals_cons, if_neg (by simp)] at h
    have hw : w ≠ "" := hne w (List.mem_cons_self _ _)
    obtain ⟨hr, hrest⟩ := scanVals_ok_forces rest w hw
      (fun x hx => hne x (List.mem_cons_of_mem _ hx)) h
    subst hr
    refine Or.inr ⟨hw, fun x hx => ?_⟩
    rcases List.mem_cons.mp hx with h1 | h1
    · exact h1
    · exact hrest x h1

/-! ## Lemmas about annotation maps -/


theorem annGet_annRemove (anns : List (String × String)) (k : String) :
    annGet (annRemove anns k) k = none := by
  unfold annGet annRemove
  rw [Option.map_eq_none']
  rw [List.find?_eq_none]
  intro p hp
  have := (List.mem_filter.mp hp).2
  simp only [Bool.not_eq_true'] at this
  simp [this]

theorem annGet_annSet_absent (anns : List (String × String)) (k v : String)
    (h : annGet anns k = none) : annGet (annSet anns k v) k = some v := by
  unfold annGet at h ⊢
  rw [Option.map_eq_none'] at h
  unfold annSet
  rw [h]
  simp only [Option.isSome_none, Bool.false_eq_true, if_false]
  rw [List.find?_append, h]
  simp

/-- The featured values of a chart list, elementwise. -/
theorem mem_featuredValuesOf {x : String} {cs : List ChartW} :
    x ∈ featuredValuesOf cs ↔ ∃ cw ∈ cs, annGet cw.chart.annotations featuredKey = some x := by
  unfold featuredValuesOf
  rw [List.mem_filterMap]

theorem featuredValuesOf_nil_iff {cs : List ChartW} :
    featuredValuesOf cs = [] ↔ ∀ cw ∈ cs, annGet cw.chart.annotations featuredKey = none := by
  unfold featuredValuesOf
  rw [List.filterMap_eq_nil_iff]

/-! ## Step equations for ensureFeaturedAnn -/

theorem ensureFeaturedAnn_scanErr {existing newCharts : List ChartW} {e : GoErr}
    (h : scanVals (featuredValuesOf existing) "" = .error e) :
    ensureFeaturedAnn existing newCharts = (some e, existing, newCharts) := by
  unfold ensureFeaturedAnn
  rw [h]

theorem ensureFeaturedAnn_scanEmpty {existing newCharts : List ChartW}
    (h : scanVals (featuredValuesOf existing) "" = .ok "") :
    ensureFeaturedAnn existing newCharts = (none, existing, newCharts) := by
  unfold ensureFeaturedAnn
  rw [h]
  simp

theorem ensureFeaturedAnn_panic {existing : List ChartW} {v : String}
    (h : scanVals (featuredValuesOf existing) "" = .ok v) (hv : v ≠ "") :
    ensureFeaturedAnn existing [] = (some .panicIndexOutOfRange, existing, []) := by
  unfold ensureFeaturedAnn
  rw [h]
  simp [hv]

/-- The update applied to the last fetched chart. -/
def featureLastFn (v : String) (cw : ChartW) : ChartW :=
  { chart := (annotateChart cw.chart featuredKey v true).1,
    modified := cw.modified || (annotateChart cw.chart featuredKey v true).2 }

/-- The update applied to every existing chart. -/
def defeatureFn (cw : ChartW) : ChartW :=
  { chart := (deannotateChart cw.chart featuredKey "").1,
    modified := cw.modified || (deannotateChart cw.chart featuredKey "").2 }

theorem ensureFeaturedAnn_apply {existing newCharts : List ChartW} {v : String}
    (h : scanVals (featuredValuesOf existing) "" = .ok v) (hv : v ≠ "")
    (hnc : newCharts ≠ []) :
    ensureFeaturedAnn existing newCharts =
      (none, existing.map defeatureFn, updateLast (featureLastFn v) newCharts) := by
  have hemp : newCharts.isEmpty = false := by
    cases newCharts with
    | nil => exact absurd rfl hnc
    | cons a b => rfl
  simp only [ensureFeaturedAnn, h, if_neg hv, hemp]
  rfl

/-! ## Lemmas about updateLast -/

theorem updateLast_eq_append (f : α → α) :
    ∀ (l : List α) (x : α), updateLast f (l ++ [x]) = l ++ [f x] := by
  intro l
  induction l with
  | nil => intro x; rfl
  | cons a rest ih =>
    intro x
    cases rest with
    | nil => rfl
    | cons b rest2 =>
      have hstep : updateLast f ((a :: b :: rest2) ++ [x])
          = a :: updateLast f ((b :: rest2) ++ [x]) := rfl
      rw [hstep, ih x]
      rfl

theorem updateLast_shape (f : α → α) (l : List α) (h : l ≠ []) :
    updateLast f l = l.dropLast ++ [f (l.getLast h)] := by
  conv_lhs => rw [← List.dropLast_append_getLast h]
  rw [updateLast_eq_append]

/-! ## Lemmas about the storage write steps -/

theorem tgzStep_dirs (st : Storage) (cw : ChartW) :
    (tgzStep st cw).1.chartDirs = st.chartDirs := by
  unfold tgzStep
  split
  · rfl
  · rfl

theorem tgzStep_tgzs_mono (st : Storage) (cw : ChartW) (k : String × VStr)
    (hk : k ∈ st.tgzs) : k ∈ (tgzStep st cw).1.tgzs := by
  unfold tgzStep
  split
  · show k ∈ (if st.tgzs.contains (tgzKey cw) then st.tgzs else st.tgzs ++ [tgzKey cw])
    split
    · exact hk
    · exact List.mem_append_left _ hk
  · exact hk

theorem tgzStep_written (st : Storage) (cw : ChartW) (k : String × VStr)
    (hk : k ∈ (tgzStep st cw).2) :
    k = tgzKey cw ∧ (cw.modified = true ∨ ¬ k ∈ st.tgzs) := by
  unfold tgzStep at hk
  by_cases hc : (cw.modified || !st.tgzs.contains (tgzKey cw)) = true
  · rw [if_pos hc] at hk
    have hkk : k = tgzKey cw := List.mem_singleton.mp hk
    subst hkk
    refine ⟨rfl, ?_⟩
    rcases Bool.or_eq_true_iff.mp hc with h2 | h2
    · exact Or.inl h2
    · rw [Bool.not_eq_true'] at h2
      refine Or.inr fun hmem => ?_
      have hco : st.tgzs.contains (tgzKey cw) = true := List.elem_iff.mpr hmem
      exact Bool.noConfusion (hco.symm.trans h2)
  · rw [if_neg hc] at hk
    simp at hk

theorem tgzStep_nowrite (st : Storage) (cw : ChartW)
    (hm : cw.modified = false) (he : tgzKey cw ∈ st.tgzs) :
    tgzStep st cw = (st, []) := by
  unfold tgzStep
  have hco : st.tgzs.contains (tgzKey cw) = true := List.elem_iff.mpr he
  rw [hm, hco]
  simp

theorem dirStep_tgzs (st : Storage) (cw : ChartW) :
    (dirStep st cw).1.tgzs = st.tgzs := by
  unfold dirStep
  split
  · rfl
  · rfl

theorem dirStep_covers (st : Storage) (cw : ChartW) :
    cw.chart.version ∈ (dirStep st cw).2 ∨ cw.chart.version ∈ st.chartDirs := by
  unfold dirStep
  by_cases hc : (cw.modified || !st.chartDirs.contains cw.chart.version) = true
  · rw [if_pos hc]
    exact Or.inl (List.mem_singleton.mpr rfl)
  · rw [if_neg hc]
    have hco : st.chartDirs.contains cw.chart.version = true := by
      cases hco2 : st.chartDirs.contains cw.chart.version
      · exact absurd (by rw [hco2]; simp) hc
      · rfl
    exact Or.inr (List.elem_iff.mp hco)

theorem dirStep_dirs_from (st : Storage) (cw : ChartW) (x : VStr)
    (hx : x ∈ (dirStep st cw).1.chartDirs) :
    x ∈ st.chartDirs ∨ x ∈ (dirStep st cw).2 := by
  unfold dirStep at hx ⊢
  by_cases hc : (cw.modified || !st.chartDirs.contains cw.chart.version) = true
  · rw [if_pos hc] at hx ⊢
    by_cases he : st.chartDirs.contains cw.chart.version = true
    · rw [if_pos he] at hx
      exact Or.inl hx
    · rw [if_neg he] at hx
      rcases List.mem_append.mp hx with h1 | h1
      · exact Or.inl h1
      · exact Or.inr (by rw [List.mem_singleton.mp h1]; exact List.mem_singleton.mpr rfl)
  · rw [if_neg hc] at hx ⊢
    exact Or.inl hx

theorem writeChartsLoop_nil (st : Storage) : writeChartsLoop [] st = (st, [], []) := rfl

theorem writeChartsLoop_cons (cw : ChartW) (rest : List ChartW) (st : Storage) :
    writeChartsLoop (cw :: rest) st =
      ((writeChartsLoop rest (dirStep (tgzStep st cw).1 cw).1).1,
       (tgzStep st cw).2 ++ (writeChartsLoop rest (dirStep (tgzStep st cw).1 cw).1).2.1,
       (dirStep (tgzStep st cw).1 cw).2
         ++ (writeChartsLoop rest (dirStep (tgzStep st cw).1 cw).1).2.2) := rfl

theorem writeChartsLoop_tgzs_mono : ∀ (cs : List ChartW) (st : Storage) (k : String × VStr),
    k ∈ st.tgzs → k ∈ (writeChartsLoop cs st).1.tgzs := by
  intro cs
  induction cs with
  | nil => intro st k hk; exact hk
  | cons cw rest ih =>
    intro st k hk
    rw [writeChartsLoop_cons]
    apply ih
    rw [dirStep_tgzs]
    exact tgzStep_tgzs_mono st cw k hk

/-- Every tgz archive written by the loop belongs to a chart of the list
that is modified or whose archive was absent at loop start. -/
theorem writeChartsLoop_written_spec : ∀ (cs : List ChartW) (st : Storage)
    (k : String × VStr), k ∈ (writeChartsLoop cs st).2.1 →
    ∃ cw ∈ cs, tgzKey cw = k ∧ (cw.modified = true ∨ ¬ k ∈ st.tgzs) := by
  intro cs
  induction cs with
  | nil =>
    intro st k hk
    rw [writeChartsLoop_nil] at hk
    simp at hk
  | cons cw rest ih =>
    intro st k hk
    rw [writeChartsLoop_cons] at hk
    rcases List.mem_append.mp hk with h1 | h1
    · obtain ⟨hkk, hcond⟩ := tgzStep_written st cw k h1
      exact ⟨cw, List.mem_cons_self _ _, hkk.symm, hcond⟩
    · obtain ⟨cw2, hmem, hkk, hcond⟩ := ih _ k h1
      refine ⟨cw2, List.mem_cons_of_mem _ hmem, hkk, ?_⟩
      rcases hcond with h2 | h2
      · exact Or.inl h2
      · refine Or.inr fun hmem2 => h2 ?_
        rw [dirStep_tgzs]
        exact tgzStep_tgzs_mono st cw k hmem2

/-- Every chart of the list has its version among the unpacked
directories or already present at loop start. -/
theorem writeChartsLoop_covers : ∀ (cs : List ChartW) (st : Storage) (cw : ChartW),
    cw ∈ cs →
    cw.chart.version ∈ (writeChartsLoop cs st).2.2 ∨ cw.chart.version ∈ st.chartDirs := by
  intro cs
  induction cs with
  | nil =>
    intro st cw hcw
    simp at hcw
  | cons c0 rest ih =>
    intro st cw hcw
    rw [writeChartsLoop_cons]
    rcases List.mem_cons.mp hcw with h1 | h1
    · subst h1
      rcases dirStep_covers (tgzStep st cw).1 cw with h2 | h2
      · exact Or.inl (List.mem_append_left _ h2)
      · rw [tgzStep_dirs] at h2
        exact Or.inr h2
    · rcases ih (dirStep (tgzStep st c0).1 c0).1 cw h1 with h2 | h2
      · exact Or.inl (List.mem_append_right _ h2)
      · rcases dirStep_dirs_from (tgzStep st c0).1 c0 _ h2 with h3 | h3
        · rw [tgzStep_dirs] at h3
          exact Or.inr h3
        · exact Or.inl (List.mem_append_left _ h3)

/-- No tgz is written when every chart of the list is unmodified and has
its archive already on disk. -/
theorem writeChartsLoop_nowrite : ∀ (cs : List ChartW) (st : Storage),
    (∀ cw ∈ cs, cw.modified = false ∧ tgzKey cw ∈ st.tgzs) →
    (writeChartsLoop cs st).2.1 = [] := by
  intro cs
  induction cs with
  | nil => intro st _; rfl
  | cons cw rest ih =>
    intro st hall
    obtain ⟨hm, he⟩ := hall cw (List.mem_cons_self _ _)
    rw [writeChartsLoop_cons, tgzStep_nowrite st cw hm he]
    have hdir : (dirStep st cw).1.tgzs = st.tgzs := dirStep_tgzs st cw
    have hrest : (writeChartsLoop rest (dirStep st cw).1).2.1 = [] := by
      apply ih
      intro c hc
      obtain ⟨h1, h2⟩ := hall c (List.mem_cons_of_mem _ hc)
      exact ⟨h1, by rw [hdir]; exact h2⟩
    simpa using hrest

/-! ## writeCharts-level corollaries -/

theorem writeCharts_removedDirs (st : Storage) (cs : List ChartW) :
    (writeCharts st cs).2.removedDirs = st.chartDirs := rfl

theorem writeCharts_written_spec (st : Storage) (cs : List ChartW) (k : String × VStr)
    (hk : k ∈ (writeCharts st cs).2.writtenTgzs) :
    ∃ cw ∈ cs, tgzKey cw = k ∧ (cw.modified = true ∨ ¬ k ∈ st.tgzs) := by
  unfold writeCharts at hk
  exact writeChartsLoop_written_spec cs { tgzs := st.tgzs, chartDirs := [] } k hk

theorem writeCharts_unpacks (st : Storage) (cs : List ChartW) (cw : ChartW)
    (hcw : cw ∈ cs) : cw.chart.version ∈ (writeCharts st cs).2.unpackedDirs := by
  unfold writeCharts
  rcases writeChartsLoop_covers cs { tgzs := st.tgzs, chartDirs := [] } cw hcw with h | h
  · exact h
  · simp at h

theorem writeCharts_nowrite (st : Storage) (cs : List ChartW)
    (hall : ∀ cw ∈ cs, cw.modified = false ∧ tgzKey cw ∈ st.tgzs) :
    (writeCharts st cs).2.writtenTgzs = [] := by
  unfold writeCharts
  exact writeChartsLoop_nowrite cs { tgzs := st.tgzs, chartDirs := [] } hall

/-! ## Reconciling with an empty fetched list -/

/-- With an empty fetched list, a successful integrateCharts changes
nothing: the per-chart loop is empty, and a success of the featured
propagation means no existing chart carried the featured annotation. -/
theorem integrateCharts_nil_new (pw : PW) (existing : List ChartW)
    (res : List ChartW × List ChartW)
    (h : integrateCharts pw existing [] = .ok res) : res = (existing, []) := by
  unfold integrateCharts at h
  rw [List.mapM_nil, pure_bind] at h
  cases hscan : scanVals (featuredValuesOf existing) "" with
  | error e =>
    rw [ensureFeaturedAnn_scanErr hscan] at h
    exact Except.noConfusion h
  | ok v =>
    by_cases hv : v = ""
    · subst hv
      rw [ensureFeaturedAnn_scanEmpty hscan] at h
      exact (exceptOk_inj h).symm
    · rw [ensureFeaturedAnn_panic hscan hv] at h
      exact Except.noConfusion h

/-! ## Lemmas about filterVersions -/

theorem exceptBind_ok {ε α β : Type} (a : α) (f : α → Except ε β) :
    ((Except.ok a : Except ε α) >>= f) = f a := rfl

theorem exceptBind_err {ε α β : Type} (e : ε) (f : α → Except ε β) :
    ((Except.error e : Except ε α) >>= f) = .error e := rfl

theorem filterVersions_nilUpstream (fetch : Fetch) (tracked : List VStr) (stored : List CV) :
    filterVersions [] fetch tracked stored = .error .panicIndexOutOfRange := rfl

theorem filterVersions_cons (u0 : CV) (urest : List CV) (fetch : Fetch)
    (tracked : List VStr) (stored : List CV) :
    filterVersions (u0 :: urest) fetch tracked stored =
      (if tracked ≠ [] then
        checkNewerUntracked tracked (stripPreRelease (u0 :: urest))
       else .ok []) >>= fun _ =>
      if stripPreRelease (u0 :: urest) = [] then .error .emptyUpstream
      else if tracked ≠ [] then
        filterTrackedGo (stripPreRelease (u0 :: urest)) stored fetch tracked
      else collectNonStoredVersions (stripPreRelease (u0 :: urest)) stored fetch := by
  simp only [filterVersions]

/-- Members of a result of the tracked-lines branch come from the
stripped upstream list. -/
theorem filterTrackedGo_mem (stripped stored : List CV) (fetch : Fetch) :
    ∀ (ts : List VStr) (res : List CV),
      filterTrackedGo stripped stored fetch ts = .ok res → ∀ cv ∈ res, cv ∈ stripped := by
  intro ts
  induction ts with
  | nil =>
    intro res h cv hcv
    cases exceptOk_inj h
    simp at hcv
  | cons t ts2 ih =>
    intro res h cv hcv
    unfold filterTrackedGo at h
    cases hn : collectNonStoredVersions (collectTrackedBucket t stripped)
        (collectTrackedBucket t stored) fetch with
    | error e =>
      rw [hn, exceptBind_err] at h
      exact Except.noConfusion h
    | ok ns =>
      rw [hn, exceptBind_ok] at h
      cases hrest : filterTrackedGo stripped stored fetch ts2 with
      | error e =>
        rw [hrest, exceptBind_err] at h
        exact Except.noConfusion h
      | ok rns =>
        rw [hrest, exceptBind_ok] at h
        cases exceptOk_inj h
        rcases List.mem_append.mp hcv with h1 | h1
        · exact collectTrackedBucket_subset t stripped cv
            (collectGo_subset _ fetch _ true ns hn cv h1)
        · exact ih rns hrest cv h1

/-- Members of a successful filterVersions result come from the
prerelease-stripped upstream list. -/
theorem filterVersions_mem (upstreamVersions : List CV) (fetch : Fetch)
    (tracked : List VStr) (stored : List CV) (res : List CV)
    (h : filterVersions upstreamVersions fetch tracked stored = .ok res) :
    ∀ cv ∈ res, cv ∈ stripPreRelease upstreamVersions := by
  intro cv hcv
  cases upstreamVersions with
  | nil =>
    rw [filterVersions_nilUpstream] at h
    exact Except.noConfusion h
  | cons u0 urest =>
    rw [filterVersions_cons] at h
    cases hcn : (if tracked ≠ [] then
        checkNewerUntracked tracked (stripPreRelease (u0 :: urest)) else .ok []) with
    | error e =>
      rw [hcn, exceptBind_err] at h
      exact Except.noConfusion h
    | ok w =>
      rw [hcn, exceptBind_ok] at h
      by_cases hstr : stripPreRelease (u0 :: urest) = []
      · rw [if_pos hstr] at h
        exact Except.noConfusion h
      · rw [if_neg hstr] at h
        by_cases htr : tracked ≠ []
        · rw [if_pos htr] at h
          exact filterTrackedGo_mem _ stored fetch tracked res h cv hcv
        · rw [if_neg htr] at h
          exact collectGo_subset stored fetch _ true res h cv hcv

/-! ## Success of the whole pipeline on well-formed input -/

theorem getLatestTrackedGo_some (a : SemV) : ∀ tracked : List VStr,
    (∀ t ∈ tracked, ∃ s, newVersion t = some s) →
    ∃ b, getLatestTrackedGo tracked (some a) = .ok (some b) := by
  intro tracked
  induction tracked generalizing a with
  | nil => intro _; exact ⟨a, rfl⟩
  | cons t ts ih =>
    intro hp
    obtain ⟨sv, hsv⟩ := hp t (List.mem_cons_self _ _)
    have hrest := fun b => ih b fun x hx => hp x (List.mem_cons_of_mem _ hx)
    show ∃ b, getLatestTrackedGo (t :: ts) (some a) = .ok (some b)
    simp only [getLatestTrackedGo, hsv]
    by_cases hgt : semverGT sv a = true
    · rw [if_pos hgt]
      exact hrest sv
    · rw [if_neg hgt]
      exact hrest a

theorem getLatestTracked_spec (tracked : List VStr)
    (hp : ∀ t ∈ tracked, ∃ s, newVersion t = some s) :
    ∃ r, getLatestTracked tracked = .ok r ∧ (tracked ≠ [] → ∃ s, r = some s) := by
  cases tracked with
  | nil => exact ⟨none, rfl, fun hne => absurd rfl hne⟩
  | cons t ts =>
    obtain ⟨sv, hsv⟩ := hp t (List.mem_cons_self _ _)
    have hstep : getLatestTracked (t :: ts) = getLatestTrackedGo ts (some sv) := by
      unfold getLatestTracked
      simp only [getLatestTrackedGo, hsv]
    obtain ⟨b, hb⟩ := getLatestTrackedGo_some sv ts fun x hx => hp x (List.mem_cons_of_mem _ hx)
    exact ⟨some b, by rw [hstep]; exact hb, fun _ => ⟨b, rfl⟩⟩

theorem checkNewerGo_ok (lt0 : SemV) : ∀ ups : List CV,
    (∀ v ∈ ups, ∃ s, newVersion v.version = some s) →
    ∃ r, checkNewerGo (some lt0) ups = .ok r := by
  intro ups
  induction ups with
  | nil => intro _; exact ⟨[], rfl⟩
  | cons v rest ih =>
    intro hp
    obtain ⟨sv, hsv⟩ := hp v (List.mem_cons_self _ _)
    obtain ⟨r, hr⟩ := ih fun x hx => hp x (List.mem_cons_of_mem _ hx)
    show ∃ r2, checkNewerGo (some lt0) (v :: rest) = .ok r2
    simp only [checkNewerGo, hsv]
    by_cases h1 : sv.major > lt0.major ∨ (sv.major = lt0.major ∧ sv.minor > lt0.minor)
    · rw [if_pos h1, hr]
      exact ⟨sv :: r, rfl⟩
    · rw [if_neg h1]
      by_cases h2 : sv.major = lt0.major ∧ sv.minor = lt0.minor
      · rw [if_pos h2]
        exact ⟨[], rfl⟩
      · rw [if_neg h2]
        exact ⟨r, hr⟩

theorem checkNewerUntracked_ok (tracked : List VStr) (ups : List CV)
    (htr : ∀ t ∈ tracked, ∃ s, newVersion t = some s)
    (hup : ∀ v ∈ ups, ∃ s, newVersion v.version = some s) :
    ∃ r, checkNewerUntracked tracked ups = .ok r := by
  obtain ⟨lt?, hlt, hsome⟩ := getLatestTracked_spec tracked htr
  unfold checkNewerUntracked
  rw [hlt, exceptBind_ok]
  by_cases hne : tracked = []
  · rw [if_pos hne]
    exact ⟨[], rfl⟩
  · rw [if_neg hne]
    obtain ⟨lt0, hlt0⟩ := hsome hne
    subst hlt0
    exact checkNewerGo_ok lt0 ups hup

theorem filterTrackedGo_ok (stripped stored : List CV) (fetch : Fetch)
    (hup : ∀ v ∈ stripped, ∃ s, newVersion v.version = some s) :
    ∀ ts : List VStr, ∃ res, filterTrackedGo stripped stored fetch ts = .ok res := by
  intro ts
  induction ts with
  | nil => exact ⟨[], rfl⟩
  | cons t ts2 ih =>
    obtain ⟨rns, hrns⟩ := ih
    have hbucket : ∀ v ∈ collectTrackedBucket t stripped, ∃ s, newVersion v.version = some s :=
      fun v hv => hup v (collectTrackedBucket_subset t stripped v hv)
    obtain ⟨ns, hns⟩ := collectGo_ok (collectTrackedBucket t stored) fetch
      (collectTrackedBucket t stripped) true hbucket
    have hns2 : collectNonStoredVersions (collectTrackedBucket t stripped)
        (collectTrackedBucket t stored) fetch = .ok ns := hns
    refine ⟨ns ++ rns, ?_⟩
    unfold filterTrackedGo
    rw [hns2, exceptBind_ok, hrns, exceptBind_ok]

/-- filterVersions on a nonempty upstream list and well-formed tracked
configuration: it fails with EmptyUpstream exactly when the upstream list
is empty after prerelease exclusion, and succeeds otherwise. -/
theorem filterVersions_spec (u0 : CV) (urest : List CV) (fetch : Fetch)
    (tracked : List VStr) (stored : List CV)
    (htr : ∀ t ∈ tracked, ∃ st, newVersion t = some st) :
    (filterVersions (u0 :: urest) fetch tracked stored = .error .emptyUpstream
      ↔ stripPreRelease (u0 :: urest) = []) ∧
    (stripPreRelease (u0 :: urest) ≠ [] →
      ∃ res, filterVersions (u0 :: urest) fetch tracked stored = .ok res) := by
  have hupstr : ∀ v ∈ stripPreRelease (u0 :: urest), ∃ s, newVersion v.version = some s :=
    fun v hv => stripPreRelease_parses hv
  have hcn : ∃ w, (if tracked ≠ [] then
      checkNewerUntracked tracked (stripPreRelease (u0 :: urest)) else .ok []) = .ok w := by
    by_cases hne : tracked ≠ []
    · rw [if_pos hne]
      exact checkNewerUntracked_ok tracked _ htr hupstr
    · rw [if_neg hne]
      exact ⟨[], rfl⟩
  obtain ⟨w, hw⟩ := hcn
  have hsucc : stripPreRelease (u0 :: urest) ≠ [] →
      ∃ res, filterVersions (u0 :: urest) fetch tracked stored = .ok res := by
    intro hstr
    rw [filterVersions_cons, hw, exceptBind_ok, if_neg hstr]
    by_cases hne : tracked ≠ []
    · rw [if_pos hne]
      exact filterTrackedGo_ok _ stored fetch hupstr tracked
    · rw [if_neg hne]
      exact collectGo_ok stored fetch _ true hupstr
  refine ⟨⟨?_, ?_⟩, hsucc⟩
  · intro h
    by_contra hstr
    obtain ⟨res, hres⟩ := hsucc hstr
    rw [hres] at h
    exact Except.noConfusion h
  · intro hstr
    rw [filterVersions_cons, hw, exceptBind_ok, if_pos hstr]

/-! ## Malformed upstream entries are dropped before selection -/

theorem stripPreRelease_filter_parseable (l : List CV) :
    stripPreRelease (l.filter parseableCV) = stripPreRelease l := by
  unfold stripPreRelease
  rw [List.filter_filter]
  apply List.filter_congr
  intro cv _
  cases hv : newVersion cv.version with
  | none => simp [parseableCV, hv]
  | some s => simp [parseableCV, hv]

/-- Dropping the unparseable upstream entries before running
filterVersions does not change the result, as long as some parseable
entry remains. -/
theorem filterVersions_skip_malformed (upstreamVersions : List CV) (fetch : Fetch)
    (tracked : List VStr) (stored : List CV) (v0 : CV) (vrest : List CV)
    (hf : upstreamVersions.filter parseableCV = v0 :: vrest) :
    filterVersions upstreamVersions fetch tracked stored
      = filterVersions (v0 :: vrest) fetch tracked stored := by
  cases upstreamVersions with
  | nil => simp at hf
  | cons u0 urest =>
    have hstr : stripPreRelease (u0 :: urest) = stripPreRelease (v0 :: vrest) := by
      rw [← stripPreRelease_filter_parseable (u0 :: urest), hf]
    rw [filterVersions_cons, filterVersions_cons, hstr]

/-! ## Featured-count helpers -/

/-- How many charts of a list carry the featured annotation. -/
def countFeatured (cs : List ChartW) : Nat :=
  (cs.filter fun cw => (annGet cw.chart.annotations featuredKey).isSome).length

theorem countFeatured_append (a b : List ChartW) :
    countFeatured (a ++ b) = countFeatured a + countFeatured b := by
  unfold countFeatured
  rw [List.filter_append, List.length_append]

theorem countFeatured_eq_zero {cs : List ChartW}
    (h : ∀ cw ∈ cs, annGet cw.chart.annotations featuredKey = none) :
    countFeatured cs = 0 := by
  unfold countFeatured
  rw [List.length_eq_zero, List.filter_eq_nil_iff]
  intro cw hcw
  rw [h cw hcw]
  simp

/-- How one existing chart relates to its reconciled image: untouched when
it carried no featured annotation; stripped of the annotation and marked
modified when it did. -/
def defeaturedRel (cw cw2 : ChartW) : Prop :=
  (annGet cw.chart.annotations featuredKey = none ∧ cw2 = cw) ∨
  (annGet cw.chart.annotations featuredKey ≠ none ∧
    annGet cw2.chart.annotations featuredKey = none ∧ cw2.modified = true)

theorem defeatureFn_id {cw : ChartW}
    (h : annGet cw.chart.annotations featuredKey = none) : defeatureFn cw = cw := by
  unfold defeatureFn deannotateChart
  rw [h]
  simp

theorem defeatureFn_carrier {cw : ChartW} {w : String}
    (h : annGet cw.chart.annotations featuredKey = some w) :
    annGet (defeatureFn cw).chart.annotations featuredKey = none ∧
    (defeatureFn cw).modified = true := by
  have hcond : (("" : String) == "" || w == "") = true := by simp
  simp only [defeatureFn, deannotateChart, h, hcond, if_true]
  constructor
  · exact annGet_annRemove cw.chart.annotations featuredKey
  · simp

theorem featureLastFn_fresh {cw : ChartW} (v : String)
    (h : annGet cw.chart.annotations featuredKey = none) :
    annGet (featureLastFn v cw).chart.annotations featuredKey = some v ∧
    (featureLastFn v cw).modified = true := by
  unfold featureLastFn annotateChart
  rw [h]
  constructor
  · exact annGet_annSet_absent cw.chart.annotations featuredKey v h
  · simp

/-! ## Sample data for witnesses and counterexamples -/

def svA : SemV := { major := 2, minor := 0, patch := 0, pre := "" }

def svB : SemV := { major := 1, minor := 0, patch := 0, pre := "" }

def svC : SemV := { major := 3, minor := 0, patch := 0, pre := "" }

def cvA : CV := { name := "testchart", version := .canon svA none }

def cvB : CV := { name := "testchart", version := .canon svB none }

def cvC : CV := { name := "testchart", version := .canon svC none }

def cvMal : CV := { name := "testchart", version := .malformed 0 }

/-- A stored record of version 1.0.0 carrying a package-revision suffix. -/
def cvBStored : CV := { name := "testchart", version := .canon svB (some 1) }

def pwSample : PW :=
  { pname := "testchart", displayName := "Test Chart", parsedVendor := "vendor",
    overlayFiles := [],
    upstream :=
      { autoInstall := "", experimental := false, hidden := false,
        remoteDependencies := true, releaseName := "", nspace := "",
        kubeVersionUp := "",
        chartMeta := { kubeVersionOv := none, iconOv := none, annotationsOv := [] },
        packageVersion := 0 } }

def chartPlain : ChartW :=
  { chart := { cname := "testchart", version := .canon svC none, icon := "",
               kubeVersion := "", annotations := [], deps := [], files := [] },
    modified := false }

def chartFeat1 : ChartW :=
  { chart := { cname := "testchart", version := .canon svA none, icon := "",
               kubeVersion := "", annotations := [(featuredKey, "1")], deps := [], files := [] },
    modified := false }

def chartFeatX : ChartW :=
  { chart := { cname := "testchart", version := .canon svA none, icon := "",
               kubeVersion := "", annotations := [(featuredKey, "x")], deps := [], files := [] },
    modified := false }

def chartFeatEmpty : ChartW :=
  { chart := { cname := "testchart", version := .canon svB none, icon := "",
               kubeVersion := "", annotations := [(featuredKey, "")], deps := [], files := [] },
    modified := false }

def chartNewFeat1 : ChartW :=
  { chart := { cname := "testchart", version := .canon svA none, icon := "",
               kubeVersion := "", annotations := [(featuredKey, "1")], deps := [], files := [] },
    modified := false }

def chartNewFeat2 : ChartW :=
  { chart := { cname := "testchart", version := .canon svC none, icon := "",
               kubeVersion := "", annotations := [(featuredKey, "2")], deps := [], files := [] },
    modified := false }

def chartExist : ChartW :=
  { chart := { cname := "testchart", version := .canon svA none,
               icon := "file://assets/icons/testchart", kubeVersion := "",
               annotations := [], deps := [], files := [] },
    modified := false }

def stSample : Storage :=
  { tgzs := [("testchart", .canon svA none)], chartDirs := [.canon svA none] }

/-- The full reconciled set of a successful integrateCharts run. -/
def fullSetOf (r : Except GoErr (List ChartW × List ChartW)) : List ChartW :=
  match r with
  | .ok p => p.1 ++ p.2
  | .error _ => []

def exW : List ChartW := (ensureFeaturedAnn [chartFeatX] [chartPlain]).2.1

def nwW : List ChartW := (ensureFeaturedAnn [chartFeatX] [chartPlain]).2.2

/-! ## Claim theorems -/

/-- C5: under fetch mode All, for every bucket of upstream versions (post
prerelease filter, hence all parseable) and stored versions, the selection
equals exactly the upstream versions of the bucket whose stripped form is
absent (by stripped-equality, stripping any revision suffix from stored
version strings) from the stored versions. -/
theorem claim_c5_all_completeness (versions stored : List CV)
    (hup : ∀ cv ∈ versions, ∃ pv, newVersion cv.version = some pv) :
    collectNonStoredVersions versions stored .all
      = .ok (versions.filter (allModeSelects stored)) :=
  collectGo_all stored versions true hup

theorem claim_c5_witness :
    (∀ cv ∈ [cvA, cvB], ∃ pv, newVersion cv.version = some pv) ∧
    collectNonStoredVersions [cvA, cvB] [cvBStored] .all
      = .ok (([cvA, cvB] : List CV).filter (allModeSelects [cvBStored])) := by
  have hp : ∀ cv ∈ [cvA, cvB], ∃ pv, newVersion cv.version = some pv := by
    intro cv hcv
    rcases List.mem_cons.mp hcv with h | h
    · cases h
      exact ⟨svA, rfl⟩
    · cases List.mem_singleton.mp h
      exact ⟨svB, rfl⟩
  exact ⟨hp, claim_c5_all_completeness [cvA, cvB] [cvBStored] hp⟩

/-- C7: under fetch mode Latest, the loop looks only at the newest
upstream version of the bucket: nothing is selected when it is already
stored (by stripped-equality against the stored version strings), and
exactly that single version is selected otherwise.  (The newest-first
sort order of the rest of the bucket is not even needed: the loop always
terminates on the first item in this mode.) -/
theorem claim_c7_latest_selection (stored : List CV) (v0 : CV) (rest : List CV)
    (pv0 : SemV) (hv : newVersion v0.version = some pv0) :
    collectNonStoredVersions (v0 :: rest) stored .latest
      = if stored.any (fun s => stripPackageVersion s.version == VStr.canon pv0 none)
        then .ok [] else .ok [v0] := by
  have h := collectGo_latest_head stored v0 rest pv0 hv
  rw [storedMatchRaw_eq_strip] at h
  exact h

theorem claim_c7_witness :
    (newVersion cvA.version = some svA ∧
     collectNonStoredVersions [cvA, cvB] [cvBStored] .latest
       = if ([cvBStored] : List CV).any
             (fun s => stripPackageVersion s.version == VStr.canon svA none)
         then .ok [] else .ok [cvA]) ∧
    (newVersion cvB.version = some svB ∧
     collectNonStoredVersions [cvB, cvA] [cvBStored] .latest
       = if ([cvBStored] : List CV).any
             (fun s => stripPackageVersion s.version == VStr.canon svB none)
         then .ok [] else .ok [cvB]) :=
  ⟨⟨rfl, claim_c7_latest_selection [cvBStored] cvA [cvB] svA rfl⟩,
   ⟨rfl, claim_c7_latest_selection [cvBStored] cvB [cvA] svB rfl⟩⟩

/-- C2: no version carrying a semver prerelease qualifier appears in the
list of versions returned by filterVersions, for any upstream list, fetch
mode, tracked-line configuration and stored list. -/
theorem claim_c2_prerelease_exclusion (upstreamVersions : List CV) (fetch : Fetch)
    (tracked : List VStr) (stored : List CV) (res : List CV)
    (h : filterVersions upstreamVersions fetch tracked stored = .ok res) :
    ∀ cv ∈ res, ∀ v r, cv.version = VStr.canon v r → v.pre = "" := by
  intro cv hcv v r hver
  have hmem := filterVersions_mem upstreamVersions fetch tracked stored res h cv hcv
  obtain ⟨-, s, hs, hpre⟩ := mem_stripPreRelease hmem
  rw [hver] at hs
  cases r with
  | none =>
    have : v = s := Option.some.inj hs
    rw [this]
    exact hpre
  | some n => exact Option.noConfusion hs

theorem claim_c2_witness :
    filterVersions [cvA] .latest [] [] = .ok [cvA] ∧
    (∀ cv ∈ [cvA], ∀ v r, cv.version = VStr.canon v r → v.pre = "") :=
  ⟨by decide, claim_c2_prerelease_exclusion [cvA] .latest [] [] [cvA] (by decide)⟩

/-- C6: under fetch mode Newer, for a bucket whose stored versions all
parse (after stripping) and whose newest stored version is greatest — the
consequence of the newest-first sort order the claim assumes — the
selection is exactly the upstream versions strictly newer than the newest
stored version, and every selected version is strictly greater than every
stored version of the bucket; with no stored versions, every upstream
version of the bucket is selected.  (The sort order of the upstream list
itself is not needed: this mode never breaks out of the scan early.) -/
theorem claim_c6_newer_monotonicity :
    (∀ (versions rest : List CV) (s0 : CV) (sl : SemV),
      newVersion (stripPackageVersion s0.version) = some sl →
      (∀ cv ∈ versions, ∃ pv, newVersion cv.version = some pv) →
      (∀ s ∈ s0 :: rest, ∀ ps, newVersion (stripPackageVersion s.version) = some ps →
        ¬ semvLT sl ps) →
      collectNonStoredVersions versions (s0 :: rest) .newer
          = .ok (versions.filter (newerSelects sl)) ∧
      (∀ cv ∈ versions.filter (newerSelects sl), ∀ pv, newVersion cv.version = some pv →
        ∀ s ∈ s0 :: rest, ∀ ps, newVersion (stripPackageVersion s.version) = some ps →
          semvLT ps pv)) ∧
    (∀ versions : List CV, (∀ cv ∈ versions, ∃ pv, newVersion cv.version = some pv) →
      collectNonStoredVersions versions [] .newer = .ok versions) := by
  constructor
  · intro versions rest s0 sl hsl hup hmax
    refine ⟨collectGo_newer s0 rest sl hsl hmax versions true hup, ?_⟩
    intro cv hcv pv hpv s hs ps hps
    have hpred : newerSelects sl cv = true := (List.mem_filter.mp hcv).2
    unfold newerSelects at hpred
    rw [hpv] at hpred
    have hgt : semvLT sl pv := of_decide_eq_true hpred
    exact semvLT_of_le_of_lt (hmax s hs ps hps) hgt
  · intro versions hup
    exact collectGo_newer_nilStored versions true hup

theorem claim_c6_witness :
    ((newVersion (stripPackageVersion cvBStored.version) = some svB ∧
      (∀ cv ∈ [cvA], ∃ pv, newVersion cv.version = some pv) ∧
      (∀ s ∈ [cvBStored], ∀ ps, newVersion (stripPackageVersion s.version) = some ps →
        ¬ semvLT svB ps)) ∧
     (collectNonStoredVersions [cvA] [cvBStored] .newer
        = .ok (([cvA] : List CV).filter (newerSelects svB)) ∧
      (∀ cv ∈ ([cvA] : List CV).filter (newerSelects svB), ∀ pv,
        newVersion cv.version = some pv →
        ∀ s ∈ [cvBStored], ∀ ps, newVersion (stripPackageVersion s.version) = some ps →
          semvLT ps pv))) ∧
    collectNonStoredVersions [cvC] [] .newer = .ok [cvC] := by
  have h1 : newVersion (stripPackageVersion cvBStored.version) = some svB := rfl
  have h2 : ∀ cv ∈ [cvA], ∃ pv, newVersion cv.version = some pv := by
    intro cv hcv
    cases List.mem_singleton.mp hcv
    exact ⟨svA, rfl⟩
  have h3 : ∀ s ∈ [cvBStored], ∀ ps, newVersion (stripPackageVersion s.version) = some ps →
      ¬ semvLT svB ps := by
    intro s hs ps hps
    cases List.mem_singleton.mp hs
    have : svB = ps := Option.some.inj hps
    cases this
    exact semvLT_irrefl svB
  have h4 : ∀ cv ∈ [cvC], ∃ pv, newVersion cv.version = some pv := by
    intro cv hcv
    cases List.mem_singleton.mp hcv
    exact ⟨svC, rfl⟩
  exact ⟨⟨⟨h1, h2, h3⟩, claim_c6_newer_monotonicity.1 [cvA] [] cvBStored svB h1 h2 h3⟩,
    claim_c6_newer_monotonicity.2 [cvC] h4⟩

/-- C8 (amended): on a NONEMPTY upstream list (and parseable tracked
lines), filterVersions fails with EmptyUpstream exactly when the list is
empty after prerelease exclusion and succeeds otherwise; but on the empty
upstream list it does not return EmptyUpstream: line 464 indexes
upstreamVersions[0] first, which panics (index out of range). -/
theorem claim_c8_empty_upstream_amended :
    (∀ (u0 : CV) (urest : List CV) (fetch : Fetch) (tracked : List VStr) (stored : List CV),
      (∀ t ∈ tracked, ∃ st, newVersion t = some st) →
      ((filterVersions (u0 :: urest) fetch tracked stored = .error .emptyUpstream
        ↔ stripPreRelease (u0 :: urest) = []) ∧
       (stripPreRelease (u0 :: urest) ≠ [] →
        ∃ res, filterVersions (u0 :: urest) fetch tracked stored = .ok res))) ∧
    (∀ (fetch : Fetch) (tracked : List VStr) (stored : List CV),
      filterVersions [] fetch tracked stored = .error .panicIndexOutOfRange) :=
  ⟨fun u0 urest fetch tracked stored htr =>
    filterVersions_spec u0 urest fetch tracked stored htr,
   fun _ _ _ => rfl⟩

/-- C8 counterexample: the empty upstream list is empty after prerelease
exclusion, so the claim requires the EmptyUpstream error, but the code
panics with an index-out-of-range instead. -/
theorem claim_c8_counterexample :
    stripPreRelease ([] : List CV) = [] ∧
    filterVersions [] .latest [] [] ≠ .error .emptyUpstream ∧
    filterVersions [] .latest [] [] = .error .panicIndexOutOfRange :=
  ⟨rfl, by decide, rfl⟩

theorem claim_c8_witness :
    (∀ t ∈ ([] : List VStr), ∃ st, newVersion t = some st) ∧
    ((filterVersions [cvA] .latest [] [] = .error .emptyUpstream
        ↔ stripPreRelease [cvA] = []) ∧
     (stripPreRelease [cvA] ≠ [] →
        ∃ res, filterVersions [cvA] .latest [] [] = .ok res)) :=
  ⟨by simp, claim_c8_empty_upstream_amended.1 cvA [] .latest [] [] (by simp)⟩

/-- C9 (amended): a malformed version string never makes filterVersions
return an error (given some parseable, non-prerelease upstream version
remains and tracked lines parse), and malformed UPSTREAM entries are
genuinely skipped: filtering them out beforehand does not change the
result.  The claim's further assertion — that a malformed STORED entry is
skipped with the selection computed from the remaining entries — fails in
Newer mode (see the counterexample): a malformed newest stored version
suppresses every selection instead of falling back to the remaining
stored versions. -/
theorem claim_c9_malformed_amended :
    (∀ (u0 : CV) (urest : List CV) (fetch : Fetch) (tracked : List VStr) (stored : List CV),
      (∀ t ∈ tracked, ∃ st, newVersion t = some st) →
      stripPreRelease (u0 :: urest) ≠ [] →
      ∃ res, filterVersions (u0 :: urest) fetch tracked stored = .ok res) ∧
    (∀ (upstreamVersions : List CV) (fetch : Fetch) (tracked : List VStr)
      (stored : List CV) (v0 : CV) (vrest : List CV),
      upstreamVersions.filter parseableCV = v0 :: vrest →
      filterVersions upstreamVersions fetch tracked stored
        = filterVersions (v0 :: vrest) fetch tracked stored) :=
  ⟨fun u0 urest fetch tracked stored htr =>
    (filterVersions_spec u0 urest fetch tracked stored htr).2,
   fun up fetch tracked stored v0 vrest hf =>
    filterVersions_skip_malformed up fetch tracked stored v0 vrest hf⟩

/-- C9 counterexample: with upstream [2.0.0], Newer mode, and stored
[malformed, 1.0.0], the selection is empty; dropping the malformed stored
entry yields [2.0.0].  The malformed entry was not "skipped with the
selection computed from the remaining entries": it suppressed the whole
selection. -/
theorem claim_c9_counterexample :
    filterVersions [cvA] .newer [] [cvMal, cvB] = .ok [] ∧
    filterVersions [cvA] .newer [] [cvB] = .ok [cvA] :=
  ⟨by decide, by decide⟩

theorem claim_c9_witness :
    ((∀ t ∈ ([] : List VStr), ∃ st, newVersion t = some st) ∧
      stripPreRelease [cvA] ≠ [] ∧
      ([cvMal, cvA] : List CV).filter parseableCV = [cvA]) ∧
    (∃ res, filterVersions [cvA] .newer [] [cvB] = .ok res) ∧
    filterVersions [cvMal, cvA] .newer [] [cvB] = filterVersions [cvA] .newer [] [cvB] :=
  ⟨⟨by simp, by decide, by decide⟩,
   claim_c9_malformed_amended.1 cvA [] .newer [] [cvB] (by simp) (by decide),
   claim_c9_malformed_amended.2 [cvMal, cvA] .newer [] [cvB] cvA [] (by decide)⟩

/-- C10: when the fetched chart list is empty and some existing chart
carries the featured annotation with a single consistent nonempty value,
the propagation step indexes newCharts[len(newCharts)-1] unconditionally
and panics with an index out of range — it neither returns an ordinary
error nor leaves the operation a no-op — and integrateCharts surfaces
that panic. -/
theorem claim_c10_empty_fetch_panic (existing : List ChartW) (v : String)
    (hv : v ≠ "")
    (hcarry : ∃ cw ∈ existing, annGet cw.chart.annotations featuredKey = some v)
    (hcons : ∀ cw ∈ existing, ∀ w, annGet cw.chart.annotations featuredKey = some w → w = v) :
    ensureFeaturedAnn existing [] = (some .panicIndexOutOfRange, existing, []) ∧
    ∀ pw : PW, integrateCharts pw existing [] = .error .panicIndexOutOfRange := by
  obtain ⟨cw0, hcw0, hget0⟩ := hcarry
  have hvmem : v ∈ featuredValuesOf existing := mem_featuredValuesOf.mpr ⟨cw0, hcw0, hget0⟩
  have hall : ∀ x ∈ featuredValuesOf existing, x = v := by
    intro x hx
    obtain ⟨cw, hcw, hget⟩ := mem_featuredValuesOf.mp hx
    exact hcons cw hcw x hget
  have hscan : scanVals (featuredValuesOf existing) "" = .ok v := by
    cases hfv : featuredValuesOf existing with
    | nil =>
      rw [hfv] at hvmem
      simp at hvmem
    | cons w rest =>
      exact scanVals_const w rest (by rw [← hfv]; exact hall)
  refine ⟨ensureFeaturedAnn_panic hscan hv, ?_⟩
  intro pw
  unfold integrateCharts
  rw [List.mapM_nil, pure_bind]
  simp only [ensureFeaturedAnn_panic hscan hv]

theorem claim_c10_witness :
    ((("1" : String) ≠ "" ∧
      (∃ cw ∈ [chartFeat1], annGet cw.chart.annotations featuredKey = some "1") ∧
      (∀ cw ∈ [chartFeat1], ∀ w,
        annGet cw.chart.annotations featuredKey = some w → w = "1")) ∧
     (ensureFeaturedAnn [chartFeat1] [] = (some .panicIndexOutOfRange, [chartFeat1], []) ∧
      ∀ pw : PW, integrateCharts pw [chartFeat1] [] = .error .panicIndexOutOfRange)) := by
  have h1 : ("1" : String) ≠ "" := by decide
  have h2 : ∃ cw ∈ [chartFeat1], annGet cw.chart.annotations featuredKey = some "1" := by
    exact ⟨chartFeat1, List.mem_singleton.mpr rfl, by decide⟩
  have h3 : ∀ cw ∈ [chartFeat1], ∀ w,
      annGet cw.chart.annotations featuredKey = some w → w = "1" := by
    intro cw hcw w hw
    cases List.mem_singleton.mp hcw
    have hv : annGet chartFeat1.chart.annotations featuredKey = some "1" := by decide
    rw [hv] at hw
    exact (Option.some.inj hw).symm
  exact ⟨⟨h1, h2, h3⟩, claim_c10_empty_fetch_panic [chartFeat1] "1" h1 h2 h3⟩

/-- C4 (amended): the featured-propagation step fails with
FeaturedConflict if and only if the sequence of featured values carried by
the existing charts, in list order, somewhere has a nonempty value
immediately followed by a different value; when every carried value is
nonempty this coincides with "more than one distinct value", but an
empty-string value can mask a conflict (see the counterexample).  On any
error or panic, no chart has been changed: the step returns its inputs
untouched. -/
theorem claim_c4_featured_conflict_amended :
    (∀ existing newCharts : List ChartW,
      ((ensureFeaturedAnn existing newCharts).1 = some GoErr.featuredConflict
        ↔ adjacentConflict (featuredValuesOf existing))) ∧
    (∀ (existing newCharts : List ChartW) (e : GoErr),
      (ensureFeaturedAnn existing newCharts).1 = some e →
      (ensureFeaturedAnn existing newCharts).2.1 = existing ∧
      (ensureFeaturedAnn existing newCharts).2.2 = newCharts) := by
  constructor
  · intro existing newCharts
    cases hscan : scanVals (featuredValuesOf existing) "" with
    | error e =>
      have he : e = .featuredConflict := scanVals_error_conflict _ "" e hscan
      subst he
      rw [ensureFeaturedAnn_scanErr hscan]
      constructor
      · intro _
        rcases (scanVals_error_iff _ "").mp hscan with ⟨b, post, hb, hacc, hbacc⟩ | hadj
        · exact absurd rfl hacc
        · exact hadj
      · intro _
        rfl
    | ok v =>
      have hnoadj : ¬ adjacentConflict (featuredValuesOf existing) := by
        intro hadj
        have hcontra := (scanVals_error_iff (featuredValuesOf existing) "").mpr (Or.inr hadj)
        rw [hscan] at hcontra
        exact Except.noConfusion hcontra
      by_cases hv : v = ""
      · subst hv
        rw [ensureFeaturedAnn_scanEmpty hscan]
        constructor
        · intro h
          exact Option.noConfusion h
        · intro h
          exact absurd h hnoadj
      · by_cases hnc : newCharts = []
        · subst hnc
          rw [ensureFeaturedAnn_panic hscan hv]
          constructor
          · intro h
            exact absurd (Option.some.inj h) (by decide)
          · intro h
            exact absurd h hnoadj
        · rw [ensureFeaturedAnn_apply hscan hv hnc]
          constructor
          · intro h
            exact Option.noConfusion h
          · intro h
            exact absurd h hnoadj
  · intro existing newCharts e h
    cases hscan : scanVals (featuredValuesOf existing) "" with
    | error e2 =>
      rw [ensureFeaturedAnn_scanErr hscan]
      exact ⟨rfl, rfl⟩
    | ok v =>
      by_cases hv : v = ""
      · subst hv
        rw [ensureFeaturedAnn_scanEmpty hscan] at h
        exact Option.noConfusion h
      · by_cases hnc : newCharts = []
        · subst hnc
          rw [ensureFeaturedAnn_panic hscan hv]
          exact ⟨rfl, rfl⟩
        · rw [ensureFeaturedAnn_apply hscan hv hnc] at h
          exact Option.noConfusion h

/-- C4 counterexample: the two existing charts carry two DISTINCT values
for the featured annotation ("" and "x"), yet the step does not fail with
FeaturedConflict — the empty value, seen first, is silently overwritten.
The claimed "fails iff more than one distinct value" is therefore false
as stated. -/
theorem claim_c4_counterexample :
    annGet chartFeatEmpty.chart.annotations featuredKey = some "" ∧
    annGet chartFeatX.chart.annotations featuredKey = some "x" ∧
    ("" : String) ≠ "x" ∧
    (ensureFeaturedAnn [chartFeatEmpty, chartFeatX] [chartPlain]).1
      ≠ some GoErr.featuredConflict :=
  ⟨by decide, by decide, by decide, by decide⟩

theorem claim_c4_witness :
    ((ensureFeaturedAnn [chartFeatX, chartFeatEmpty] [chartPlain]).1
        = some GoErr.featuredConflict
      ↔ adjacentConflict (featuredValuesOf [chartFeatX, chartFeatEmpty])) ∧
    ((ensureFeaturedAnn [chartFeatX, chartFeatEmpty] [chartPlain]).1
        = some GoErr.featuredConflict) ∧
    ((ensureFeaturedAnn [chartFeatX, chartFeatEmpty] [chartPlain]).2.1
        = [chartFeatX, chartFeatEmpty] ∧
     (ensureFeaturedAnn [chartFeatX, chartFeatEmpty] [chartPlain]).2.2 = [chartPlain]) :=
  ⟨claim_c4_featured_conflict_amended.1 [chartFeatX, chartFeatEmpty] [chartPlain],
   by decide,
   claim_c4_featured_conflict_amended.2 [chartFeatX, chartFeatEmpty] [chartPlain]
     GoErr.featuredConflict (by decide)⟩

theorem forall₂_defeature (l : List ChartW) :
    List.Forall₂ defeaturedRel l (l.map defeatureFn) := by
  induction l with
  | nil => exact List.Forall₂.nil
  | cons cw rest ih =>
    refine List.Forall₂.cons ?_ ih
    cases hg : annGet cw.chart.annotations featuredKey with
    | none => exact Or.inl ⟨hg, defeatureFn_id hg⟩
    | some w =>
      exact Or.inr ⟨by rw [hg]; exact fun hcon => Option.noConfusion hcon,
        (defeatureFn_carrier hg).1, (defeatureFn_carrier hg).2⟩

/-- C3 (amended): provided no fetched chart already carries the featured
annotation (the code itself assumes "they will not have the featured
annotation") and no existing chart carries it with the empty value, then
after a featured propagation that completes without error: at most one
chart of the full set carries the annotation; every existing chart either
kept its state (no annotation) or lost the annotation and was marked
modified; whenever an existing chart carried value v, the LAST fetched
chart now carries v and is marked modified; and the fetched charts other
than the last are untouched. -/
theorem claim_c3_featured_amended (existing newCharts ex2 nw2 : List ChartW)
    (hnew : ∀ cw ∈ newCharts, annGet cw.chart.annotations featuredKey = none)
    (hne : ∀ cw ∈ existing, annGet cw.chart.annotations featuredKey ≠ some "")
    (hok : ensureFeaturedAnn existing newCharts = (none, ex2, nw2)) :
    countFeatured (ex2 ++ nw2) ≤ 1 ∧
    List.Forall₂ defeaturedRel existing ex2 ∧
    (∀ v cw, cw ∈ existing → annGet cw.chart.annotations featuredKey = some v →
      ∃ l, nw2.getLast? = some l ∧ annGet l.chart.annotations featuredKey = some v ∧
        l.modified = true) ∧
    nw2.dropLast = newCharts.dropLast := by
  have hvalsne : ∀ x ∈ featuredValuesOf existing, x ≠ "" := by
    intro x hx hxe
    subst hxe
    obtain ⟨cw, hcw, hget⟩ := mem_featuredValuesOf.mp hx
    exact hne cw hcw hget
  cases hscan : scanVals (featuredValuesOf existing) "" with
  | error e =>
    rw [ensureFeaturedAnn_scanErr hscan] at hok
    exact Option.noConfusion (congrArg Prod.fst hok)
  | ok v =>
    by_cases hv : v = ""
    · subst hv
      rw [ensureFeaturedAnn_scanEmpty hscan] at hok
      have hex : existing = ex2 := congrArg (fun p => p.2.1) hok
      have hnw : newCharts = nw2 := congrArg (fun p => p.2.2) hok
      have hvals : featuredValuesOf existing = [] := by
        rcases scanVals_ok_shape (featuredValuesOf existing) hvalsne hscan with ⟨h, -⟩ | ⟨hr, -⟩
        · exact h
        · exact absurd rfl hr
      have hnone : ∀ cw ∈ existing, annGet cw.chart.annotations featuredKey = none :=
        featuredValuesOf_nil_iff.mp hvals
      subst hex
      subst hnw
      refine ⟨?_, ?_, ?_, rfl⟩
      · rw [countFeatured_append, countFeatured_eq_zero hnone, countFeatured_eq_zero hnew]
        exact Nat.zero_le 1
      · exact List.forall₂_same.mpr fun cw hcw => Or.inl ⟨hnone cw hcw, rfl⟩
      · intro w cw hcw hget
        rw [hnone cw hcw] at hget
        exact Option.noConfusion hget
    · have hnc : newCharts ≠ [] := by
        intro hempty
        subst hempty
        rw [ensureFeaturedAnn_panic hscan hv] at hok
        exact Option.noConfusion (congrArg Prod.fst hok)
      rw [ensureFeaturedAnn_apply hscan hv hnc] at hok
      have hex : existing.map defeatureFn = ex2 := congrArg (fun p => p.2.1) hok
      have hnw : updateLast (featureLastFn v) newCharts = nw2 := congrArg (fun p => p.2.2) hok
      subst hex
      subst hnw
      have hallv : ∀ x ∈ featuredValuesOf existing, x = v := by
        rcases scanVals_ok_shape (featuredValuesOf existing) hvalsne hscan with ⟨-, hr⟩ | ⟨-, h⟩
        · exact absurd hr hv
        · exact h
      have hlastmem := List.getLast_mem hnc
      have hlastnone : annGet (newCharts.getLast hnc).chart.annotations featuredKey = none :=
        hnew _ hlastmem
      obtain ⟨hlget, hlmod⟩ := featureLastFn_fresh v hlastnone
      have hshape : updateLast (featureLastFn v) newCharts
          = newCharts.dropLast ++ [featureLastFn v (newCharts.getLast hnc)] :=
        updateLast_shape (featureLastFn v) newCharts hnc
      have hexnone : ∀ cw2 ∈ existing.map defeatureFn,
          annGet cw2.chart.annotations featuredKey = none := by
        intro cw2 hcw2
        obtain ⟨cw, hcw, hf⟩ := List.mem_map.mp hcw2
        subst hf
        cases hg : annGet cw.chart.annotations featuredKey with
        | none =>
          rw [defeatureFn_id hg]
          exact hg
        | some w => exact (defeatureFn_carrier hg).1
      refine ⟨?_, forall₂_defeature existing, ?_, ?_⟩
      · rw [countFeatured_append, countFeatured_eq_zero hexnone, hshape,
          countFeatured_append]
        rw [countFeatured_eq_zero fun cw hcw => hnew cw (List.dropLast_subset _ hcw)]
        have hone : countFeatured [featureLastFn v (newCharts.getLast hnc)] = 1 := by
          unfold countFeatured
          simp [hlget]
        rw [hone]
      · intro w cw hcw hget
        have hwv : w = v := hallv w (mem_featuredValuesOf.mpr ⟨cw, hcw, hget⟩)
        subst hwv
        refine ⟨featureLastFn w (newCharts.getLast hnc), ?_, hlget, hlmod⟩
        rw [hshape]
        exact List.getLast?_concat _
      · rw [hshape]
        exact List.dropLast_concat

/-- C3 counterexample: two fetched charts arrive from upstream already
carrying the featured annotation (values "1" and "2"); no existing chart
carries it, so the propagation step returns early and removes nothing.
The reconciliation completes without error, yet TWO charts of the
resulting full set carry the featured annotation: the claimed at-most-one
exclusivity is not enforced by the code. -/
theorem claim_c3_counterexample :
    (integrateCharts pwSample [] [chartNewFeat1, chartNewFeat2]).isOk = true ∧
    countFeatured (fullSetOf (integrateCharts pwSample [] [chartNewFeat1, chartNewFeat2]))
      = 2 :=
  ⟨by decide, by decide⟩

theorem claim_c3_witness :
    ((∀ cw ∈ [chartPlain], annGet cw.chart.annotations featuredKey = none) ∧
     (∀ cw ∈ [chartFeatX], annGet cw.chart.annotations featuredKey ≠ some "") ∧
     ensureFeaturedAnn [chartFeatX] [chartPlain] = (none, exW, nwW)) ∧
    (countFeatured (exW ++ nwW) ≤ 1 ∧
     List.Forall₂ defeaturedRel [chartFeatX] exW ∧
     (∀ v cw, cw ∈ [chartFeatX] → annGet cw.chart.annotations featuredKey = some v →
       ∃ l, nwW.getLast? = some l ∧ annGet l.chart.annotations featuredKey = some v ∧
         l.modified = true) ∧
     nwW.dropLast = ([chartPlain] : List ChartW).dropLast) :=
  ⟨⟨by decide, by decide, by decide⟩,
   claim_c3_featured_amended [chartFeatX] [chartPlain] exW nwW
     (by decide) (by decide) (by decide)⟩

/-- C1 (amended): reconciling an unchanged existing set against an empty
fetched set marks nothing modified and writes no compressed archive — the
compressed archive is indeed persisted only when a chart is modified or
its archive is absent — BUT writeCharts is not write-free: it always
deletes the entire unpacked charts directory (os.RemoveAll, regardless of
modification state) and re-unpacks every chart of the final set, so the
"no storage writes / nothing pruned" part of the claim fails for the
unpacked directory form (the on-disk-absence condition for directories is
checked only against the post-wipe state, where it holds vacuously). -/
theorem claim_c1_storage_amended :
    (∀ (st : Storage) (cs : List ChartW) (k : String × VStr),
      k ∈ (writeCharts st cs).2.writtenTgzs →
      ∃ cw ∈ cs, tgzKey cw = k ∧ (cw.modified = true ∨ ¬ k ∈ st.tgzs)) ∧
    (∀ (st : Storage) (cs : List ChartW),
      (writeCharts st cs).2.removedDirs = st.chartDirs) ∧
    (∀ (st : Storage) (cs : List ChartW) (cw : ChartW), cw ∈ cs →
      cw.chart.version ∈ (writeCharts st cs).2.unpackedDirs) ∧
    (∀ (pw : PW) (existing : List ChartW) (res : List ChartW × List ChartW),
      integrateCharts pw existing [] = .ok res → res = (existing, [])) ∧
    (∀ (st : Storage) (cs : List ChartW),
      (∀ cw ∈ cs, cw.modified = false ∧ tgzKey cw ∈ st.tgzs) →
      (writeCharts st cs).2.writtenTgzs = []) :=
  ⟨writeCharts_written_spec,
   writeCharts_removedDirs,
   writeCharts_unpacks,
   integrateCharts_nil_new,
   writeCharts_nowrite⟩

/-- C1 counterexample: one unmodified existing chart whose archive and
unpacked directory are both on disk, an empty fetched set; the
reconciliation succeeds and changes nothing and no archive is written —
yet writeCharts deletes the unpacked directory and re-unpacks it, so
storage writes and pruning do occur, contradicting the claim's "produces
no storage writes: nothing is marked modified and nothing is pruned". -/
theorem claim_c1_counterexample :
    integrateCharts pwSample [chartExist] [] = .ok ([chartExist], []) ∧
    chartExist.modified = false ∧
    tgzKey chartExist ∈ stSample.tgzs ∧
    chartExist.chart.version ∈ stSample.chartDirs ∧
    (writeCharts stSample [chartExist]).2.writtenTgzs = [] ∧
    (writeCharts stSample [chartExist]).2.removedDirs = [.canon svA none] ∧
    (writeCharts stSample [chartExist]).2.unpackedDirs = [.canon svA none] :=
  ⟨by decide, by decide, by decide, by decide, by decide, by decide, by decide⟩

theorem claim_c1_witness :
    (∀ cw ∈ [chartExist], cw.modified = false ∧ tgzKey cw ∈ stSample.tgzs) ∧
    (writeCharts stSample [chartExist]).2.writtenTgzs = [] ∧
    integrateCharts pwSample [chartExist] [] = .ok ([chartExist], []) ∧
    (([chartExist], []) : List ChartW × List ChartW) = ([chartExist], []) :=
  ⟨by decide,
   claim_c1_storage_amended.2.2.2.2 stSample [chartExist] (by decide),
   by decide,
   claim_c1_storage_amended.2.2.2.1 pwSample [chartExist] ([chartExist], []) (by decide)⟩
